import Mathlib

/-!
# Verification of the Adaptyst ingest server and transport layer

A shallow embedding of the parts of the Adaptyst sources relevant to the
frozen claims:

* `src/server/client.cpp` (`StdClient::process`): the control-connection
  state machine, the merge of subclient results, the timestamp rebase and
  the file-upload phase;
* `src/server/socket.cpp` (`TCPSocket::read`/`FileDescriptor::read`,
  `TCPSocket::write`/`FileDescriptor::write`): the framed newline reader
  and writer;
* `src/main.cpp` (`main_entrypoint`): the post-parse flag dispatch.

Pure functions are translated as Lean functions; machine integers are
modelled as `Nat`/`Int` with explicit reduction modulo `2 ^ 64` where the
C++ performs unsigned arithmetic.
-/

namespace Adaptyst

/-! ## Decimal digits

The control frames carry decimal counts matched by the ECMAScript character
class `\d` = `[0-9]`.  We model digit characters by the explicit ten-element
list, digit strings by `Nat.digits`, and prove the two round-trip lemmas the
`start` frame analysis needs. -/

/-- The ten ASCII digit characters, i.e. the ECMAScript class `\d`. -/
def isDig (c : Char) : Bool :=
  c = '0' ∨ c = '1' ∨ c = '2' ∨ c = '3' ∨ c = '4' ∨
  c = '5' ∨ c = '6' ∨ c = '7' ∨ c = '8' ∨ c = '9'

/-- The digit character for a value `d < 10`. -/
def digitChar (d : Nat) : Char :=
  match d with
  | 0 => '0' | 1 => '1' | 2 => '2' | 3 => '3' | 4 => '4'
  | 5 => '5' | 6 => '6' | 7 => '7' | 8 => '8' | _ => '9'

/-- Numeric value of a digit character. -/
def charVal (c : Char) : Nat := c.toNat - 48

/-- Value of a big-endian digit string, as computed by `std::stoi`/`std::stoull`
on a string of digits (ignoring overflow, which the theorems bound away). -/
def digitsVal (ds : List Char) : Nat :=
  ds.foldl (fun a c => 10 * a + charVal c) 0

/-- Big-endian character rendering of a natural number, the decimal numeral. -/
def natNumeralChars (n : Nat) : List Char :=
  ((Nat.digits 10 n).reverse).map digitChar

theorem charVal_digitChar {d : Nat} (h : d < 10) : charVal (digitChar d) = d := by
  interval_cases d <;> rfl

theorem isDig_digitChar {d : Nat} (h : d < 10) : isDig (digitChar d) = true := by
  interval_cases d <;> rfl

theorem digitChar_charVal {c : Char} (h : isDig c = true) : digitChar (charVal c) = c := by
  simp only [isDig, decide_eq_true_eq, Bool.or_eq_true] at h
  rcases h with h | h | h | h | h | h | h | h | h | h <;> subst h <;> rfl

theorem digitsVal_append (ds : List Char) (c : Char) :
    digitsVal (ds ++ [c]) = 10 * digitsVal ds + charVal c := by
  simp [digitsVal, List.foldl_append]

/-- Folding the big-endian rendering of a little-endian digit list gives
`Nat.ofDigits`. -/
theorem digitsVal_reverse_map (l : List Nat) (h : ∀ d ∈ l, d < 10) :
    digitsVal ((l.reverse).map digitChar) = Nat.ofDigits 10 l := by
  induction l with
  | nil => rfl
  | cons d l ih =>
    have hd : d < 10 := h d (List.mem_cons_self d l)
    have hl : ∀ x ∈ l, x < 10 := fun x hx => h x (List.mem_cons_of_mem d hx)
    simp only [List.reverse_cons, List.map_append, List.map_cons, List.map_nil]
    rw [digitsVal_append, ih hl, charVal_digitChar hd, Nat.ofDigits_cons]
    ring

theorem digitsVal_natNumeralChars (n : Nat) : digitsVal (natNumeralChars n) = n := by
  rw [natNumeralChars, digitsVal_reverse_map _ (fun d hd => Nat.digits_lt_base (by norm_num) hd),
    Nat.ofDigits_digits]

theorem natNumeralChars_ne_nil {n : Nat} (h : n ≠ 0) : natNumeralChars n ≠ [] := by
  intro hc
  have hd : Nat.digits 10 n ≠ [] := (Nat.digits_ne_nil_iff_ne_zero (b := 10)).mpr h
  simp only [natNumeralChars, List.map_eq_nil_iff, List.reverse_eq_nil_iff] at hc
  exact hd hc

theorem natNumeralChars_all_digits (n : Nat) :
    ∀ c ∈ natNumeralChars n, isDig c = true := by
  intro c hc
  simp only [natNumeralChars, List.mem_map, List.mem_reverse] at hc
  obtain ⟨d, hd, rfl⟩ := hc
  exact isDig_digitChar (Nat.digits_lt_base (by norm_num) hd)

theorem natNumeralChars_head_ne_zero {n : Nat} (h : n ≠ 0) :
    natNumeralChars n ≠ [] ∧ (natNumeralChars n).headI ≠ '0' := by
  refine ⟨natNumeralChars_ne_nil h, ?_⟩
  have hnil : Nat.digits 10 n ≠ [] := (Nat.digits_ne_nil_iff_ne_zero (b := 10)).mpr h
  have hlast := Nat.getLast_digit_ne_zero 10 h
  rw [natNumeralChars]
  intro hhead
  rcases hh : (Nat.digits 10 n).reverse with _ | ⟨d, rest⟩
  · exact hnil (by simpa using congrArg List.reverse hh)
  · have hsplit : Nat.digits 10 n = rest.reverse ++ [d] := by
      have := congrArg List.reverse hh
      simpa using this
    have hmem : d ∈ Nat.digits 10 n := by
      rw [hsplit]
      exact List.mem_append_right _ (List.mem_singleton_self d)
    have hd10 : d < 10 := Nat.digits_lt_base (by norm_num) hmem
    have hdlast : (Nat.digits 10 n).getLast hnil = d := by
      have h1 := List.getLast?_eq_getLast_of_ne_nil hnil
      have h2 : (Nat.digits 10 n).getLast? = some d := by
        rw [hsplit]; exact List.getLast?_concat _
      rw [h2] at h1
      exact (Option.some.inj h1).symm
    rw [hh] at hhead
    simp only [List.map_cons, List.headI] at hhead
    have hcv : charVal (digitChar d) = charVal '0' := by rw [hhead]
    rw [charVal_digitChar hd10] at hcv
    exact hlast (hdlast.trans hcv)

/-- A canonical digit string (nonempty, digits only, no leading zero) renders
back from its value. -/
theorem map_digitChar_charVal (ds : List Char) (hdig : ∀ c ∈ ds, isDig c = true) :
    ds.map (fun c => digitChar (charVal c)) = ds := by
  have h : ∀ c ∈ ds, digitChar (charVal c) = c := fun c hc => digitChar_charVal (hdig c hc)
  exact (List.map_congr_left h).trans (List.map_id ds)

theorem natNumeralChars_digitsVal (ds : List Char) (hne : ds ≠ [])
    (hdig : ∀ c ∈ ds, isDig c = true) (hhead : ds.headI ≠ '0') :
    natNumeralChars (digitsVal ds) = ds := by
  -- pass to the little-endian value list
  have hlt : ∀ d ∈ (ds.map charVal).reverse, d < 10 := by
    intro d hd
    simp only [List.mem_reverse, List.mem_map] at hd
    obtain ⟨c, hc, rfl⟩ := hd
    have := hdig c hc
    simp only [isDig, decide_eq_true_eq, Bool.or_eq_true] at this
    rcases this with h | h | h | h | h | h | h | h | h | h <;> subst h <;> decide
  have hval : digitsVal ds = Nat.ofDigits 10 ((ds.map charVal).reverse) := by
    rw [← digitsVal_reverse_map _ hlt]
    congr 1
    rw [List.reverse_reverse, List.map_map]
    exact (map_digitChar_charVal ds hdig).symm
  have hlastl : ∀ (h : (ds.map charVal).reverse ≠ []),
      ((ds.map charVal).reverse).getLast h ≠ 0 := by
    intro h
    rcases ds with _ | ⟨c, rest⟩
    · exact absurd rfl hne
    · have hgl : ((List.map charVal (c :: rest)).reverse).getLast h = charVal c := by
        have h1 := List.getLast?_eq_getLast_of_ne_nil h
        have h2 : ((List.map charVal (c :: rest)).reverse).getLast? = some (charVal c) := by
          simp only [List.map_cons, List.reverse_cons]
          exact List.getLast?_concat _
        rw [h2] at h1
        exact (Option.some.inj h1).symm
      rw [hgl]
      intro hzero
      apply hhead
      have hdigh : isDig c = true := hdig c (List.mem_cons_self c rest)
      have := digitChar_charVal hdigh
      rw [hzero] at this
      exact this.symm
  have hdig' : Nat.digits 10 (Nat.ofDigits 10 ((ds.map charVal).reverse)) =
      (ds.map charVal).reverse :=
    Nat.digits_ofDigits 10 (by norm_num) _ hlt hlastl
  rw [hval, natNumeralChars, hdig', List.reverse_reverse, List.map_map]
  exact map_digitChar_charVal ds hdig

theorem takeWhile_append_all {p : Char → Bool} {l₁ l₂ : List Char}
    (h : ∀ a ∈ l₁, p a = true) :
    (l₁ ++ l₂).takeWhile p = l₁ ++ l₂.takeWhile p := by
  induction l₁ with
  | nil => rfl
  | cons a l ih =>
    simp only [List.cons_append, List.takeWhile_cons, h a (List.mem_cons_self a l)]
    rw [ih (fun b hb => h b (List.mem_cons_of_mem a hb))]
    rfl

theorem dropWhile_append_all {p : Char → Bool} {l₁ l₂ : List Char}
    (h : ∀ a ∈ l₁, p a = true) :
    (l₁ ++ l₂).dropWhile p = l₂.dropWhile p := by
  induction l₁ with
  | nil => rfl
  | cons a l ih =>
    simp only [List.cons_append, List.dropWhile_cons, h a (List.mem_cons_self a l)]
    exact ih (fun b hb => h b (List.mem_cons_of_mem a hb))

/-! ## The `AwaitStart` state of the control connection

`StdClient::process` (src/server/client.cpp) reads the first control frame
and matches it against the ECMAScript regex `^start([1-9]\d*) (.+)$`:
on success it creates `<working>/<result_dir>`, its `processed` and `out`
subdirectories, and spawns `stoi(match[1])` subclients; otherwise it replies
`error_wrong_command` and returns. -/

/-- ECMAScript line terminators, which the regex metacharacter `.` does not
match. -/
def isLineTerm (c : Char) : Bool :=
  c = '\n' ∨ c = '\r' ∨ c = '\u2028' ∨ c = '\u2029'

/-- Match of the anchored regex `^start([1-9]\d*) (.+)$` against a control
frame.  The digit run is maximal (the character class `\d` and the literal
space are disjoint, so backtracking cannot produce a shorter match), the
first digit must be `1`-`9`, and the `.+` group must be nonempty and free of
line terminators.  Returns `stoi` of the digit group and the directory
group. -/
def parseStartMsg (msg : String) : Option (Nat × String) :=
  let cs := msg.data
  if cs.take 5 = ['s', 't', 'a', 'r', 't'] then
    let rest := cs.drop 5
    let ds := rest.takeWhile isDig
    match rest.dropWhile isDig with
    | c :: dir =>
      if c = ' ' ∧ ds ≠ [] ∧ ds.headI ≠ '0' ∧ dir ≠ [] ∧ ∀ x ∈ dir, isLineTerm x = false then
        some (digitsVal ds, String.mk dir)
      else none
    | [] => none
  else none

/-- Outcome of the `AwaitStart` state on one control frame. -/
inductive StartAction where
  | errorWrongCommand : StartAction
  | spawn : Nat → String → StartAction
deriving DecidableEq

/-- The `AwaitStart` step of `StdClient::process`: a frame matching the
`start` regex spawns `N` subclients for result directory `dir` (and the
client proceeds to read the profiled filename); any other frame is answered
with `error_wrong_command` followed by a return. -/
def stdClientAwaitStart (msg : String) : StartAction :=
  match parseStartMsg msg with
  | none => .errorWrongCommand
  | some (n, dir) => .spawn n dir

/-- The directories created on a successful `start` frame
(`fs::create_directory` of the result path, its `processed` and its `out`
subdirectory). -/
def startDirsCreated (workingDir msg : String) : List String :=
  match parseStartMsg msg with
  | none => []
  | some (_, dir) =>
    [workingDir ++ "/" ++ dir,
     workingDir ++ "/" ++ dir ++ "/processed",
     workingDir ++ "/" ++ dir ++ "/out"]

/-- The well-formed `start` frame for count `n` and directory `dir`: the
token `start` immediately followed by the decimal count, a space and the
directory name (note: no space between `start` and the count). -/
def startFrame (n : Nat) (dir : String) : String :=
  "start" ++ String.mk (natNumeralChars n) ++ " " ++ dir

/-- A result-directory name the regex group `(.+)` can match. -/
def goodResultDir (dir : String) : Prop :=
  dir ≠ "" ∧ ∀ c ∈ dir.data, isLineTerm c = false

theorem string_ne_empty_data {dir : String} (h : dir ≠ "") : dir.data ≠ [] := by
  intro hc
  apply h
  cases dir with
  | mk d =>
    have hd : d = [] := hc
    rw [hd]

theorem digitsVal_pos {ds : List Char} (hne : ds ≠ []) (hdig : ∀ c ∈ ds, isDig c = true)
    (hhead : ds.headI ≠ '0') : 1 ≤ digitsVal ds := by
  by_contra h
  have h0 : digitsVal ds = 0 := by omega
  have hrt := natNumeralChars_digitsVal ds hne hdig hhead
  rw [h0] at hrt
  have hz : natNumeralChars 0 = [] := by simp [natNumeralChars]
  rw [hz] at hrt
  exact hne hrt.symm

theorem parseStartMsg_eq_some {msg : String} {n : Nat} {dir : String}
    (h : parseStartMsg msg = some (n, dir)) :
    1 ≤ n ∧ goodResultDir dir ∧ msg = startFrame n dir := by
  unfold parseStartMsg at h
  simp only at h
  split at h
  case isFalse => exact absurd h (by simp)
  case isTrue htake =>
    split at h
    case h_2 => exact absurd h (by simp)
    case h_1 c dd hdrop =>
      split at h
      case isFalse => exact absurd h (by simp)
      case isTrue hcond =>
        obtain ⟨hspace, hne, hhead, hdne, hliner⟩ := hcond
        subst hspace
        have hpair : (digitsVal (List.takeWhile isDig (msg.data.drop 5)), String.mk dd) =
            (n, dir) := Option.some.inj h
        have hn : n = digitsVal (List.takeWhile isDig (msg.data.drop 5)) :=
          (congrArg Prod.fst hpair).symm
        have hdir : dir = String.mk dd := (congrArg Prod.snd hpair).symm
        have hdig : ∀ c ∈ List.takeWhile isDig (msg.data.drop 5), isDig c = true :=
          fun c hc => List.mem_takeWhile_imp hc
        have hnum : natNumeralChars n = List.takeWhile isDig (msg.data.drop 5) := by
          rw [hn]
          exact natNumeralChars_digitsVal _ hne hdig hhead
        have hrest : msg.data.drop 5 =
            List.takeWhile isDig (msg.data.drop 5) ++ (' ' :: dd) := by
          rw [← hdrop]
          exact (List.takeWhile_append_dropWhile isDig (msg.data.drop 5)).symm
        have hmsg : msg.data = ['s', 't', 'a', 'r', 't'] ++
            (natNumeralChars n ++ (' ' :: dd)) := by
          rw [hnum, ← hrest, ← htake]
          exact (List.take_append_drop 5 msg.data).symm
        refine ⟨?_, ?_, ?_⟩
        · rw [hn]; exact digitsVal_pos hne hdig hhead
        · constructor
          · rw [hdir]
            intro hc
            have : dd = [] := congrArg String.data hc
            exact hdne this
          · intro c hc
            rw [hdir] at hc
            exact hliner c hc
        · have hfd : (startFrame n dir).data = ['s', 't', 'a', 'r', 't'] ++
              (natNumeralChars n ++ (' ' :: dd)) := by
            rw [startFrame, hdir]
            simp only [String.data_append]
            simp
          cases msg with
          | mk d =>
            have hde : d = (startFrame n dir).data := by
              rw [hfd]; exact hmsg
            rw [hde]

theorem parseStartMsg_startFrame {n : Nat} {dir : String} (hn : 1 ≤ n)
    (hdir : goodResultDir dir) :
    parseStartMsg (startFrame n dir) = some (n, dir) := by
  obtain ⟨hdne, hliner⟩ := hdir
  have hn0 : n ≠ 0 := by omega
  obtain ⟨hnn, hhead⟩ := natNumeralChars_head_ne_zero hn0
  have hdata : (startFrame n dir).data =
      ['s', 't', 'a', 'r', 't'] ++ (natNumeralChars n ++ (' ' :: dir.data)) := by
    rw [startFrame]
    simp only [String.data_append]
    simp
  have hdig : ∀ c ∈ natNumeralChars n, isDig c = true := natNumeralChars_all_digits n
  have htake : (['s', 't', 'a', 'r', 't'] ++
      (natNumeralChars n ++ (' ' :: dir.data))).take 5 = ['s', 't', 'a', 'r', 't'] := by
    simp [List.take_append]
  have hdrop : (['s', 't', 'a', 'r', 't'] ++
      (natNumeralChars n ++ (' ' :: dir.data))).drop 5 =
      natNumeralChars n ++ (' ' :: dir.data) := by
    simp [List.drop_append]
  have htw : (natNumeralChars n ++ (' ' :: dir.data)).takeWhile isDig = natNumeralChars n := by
    rw [takeWhile_append_all hdig]
    simp [List.takeWhile_cons, isDig]
  have hdw : (natNumeralChars n ++ (' ' :: dir.data)).dropWhile isDig = ' ' :: dir.data := by
    rw [dropWhile_append_all hdig]
    simp [List.dropWhile_cons, isDig]
  unfold parseStartMsg
  simp only [hdata, htake, hdrop, htw, hdw, if_true]
  show (if True ∧ natNumeralChars n ≠ [] ∧ (natNumeralChars n).headI ≠ '0' ∧
      dir.data ≠ [] ∧ ∀ x ∈ dir.data, isLineTerm x = false then
      some (digitsVal (natNumeralChars n), String.mk dir.data) else none) = some (n, dir)
  have hc : True ∧ natNumeralChars n ≠ [] ∧ (natNumeralChars n).headI ≠ '0' ∧
      dir.data ≠ [] ∧ ∀ x ∈ dir.data, isLineTerm x = false :=
    ⟨trivial, hnn, hhead, string_ne_empty_data hdne, hliner⟩
  rw [if_pos hc, digitsVal_natNumeralChars]

/-- C1 (amended).  In the `AwaitStart` state, the ingest client spawns `N`
subclients for result directory `dir` exactly on frames of the form
`start<N> <dir>` — the token `start` immediately followed by the decimal
count (first digit `1`-`9`, so `N ≥ 1`), then a space, then the nonempty
directory name; there is **no** space between `start` and the count.  On a
successful frame the client creates `<working>/<dir>`,
`<working>/<dir>/processed` and `<working>/<dir>/out`; on every other frame
it replies `error_wrong_command` and stops. -/
theorem start_frame_spec (msg : String) (n : Nat) (dir workingDir : String) :
    (stdClientAwaitStart msg = StartAction.spawn n dir ↔
      1 ≤ n ∧ goodResultDir dir ∧ msg = startFrame n dir) ∧
    (stdClientAwaitStart msg = StartAction.spawn n dir →
      startDirsCreated workingDir msg =
        [workingDir ++ "/" ++ dir,
         workingDir ++ "/" ++ dir ++ "/processed",
         workingDir ++ "/" ++ dir ++ "/out"]) := by
  have hmain : stdClientAwaitStart msg = StartAction.spawn n dir ↔
      parseStartMsg msg = some (n, dir) := by
    unfold stdClientAwaitStart
    cases hp : parseStartMsg msg with
    | none => simp
    | some p =>
      obtain ⟨n', dir'⟩ := p
      simp [StartAction.spawn.injEq, Prod.ext_iff, and_comm]
  constructor
  · rw [hmain]
    constructor
    · exact parseStartMsg_eq_some
    · rintro ⟨hn, hdir, rfl⟩
      exact parseStartMsg_startFrame hn hdir
  · intro h
    rw [hmain] at h
    unfold startDirsCreated
    rw [h]

/-- C1 counterexample.  The frame `start 2 run1` — the claimed form, with a
space between `start` and the count — does **not** match the code's regex
`^start([1-9]\d*) (.+)$`; the ingest client replies `error_wrong_command`
instead of creating directories and spawning two subclients. -/
theorem start_space_frame_rejected :
    stdClientAwaitStart "start 2 run1" = StartAction.errorWrongCommand ∧
    stdClientAwaitStart "start 2 run1" ≠ StartAction.spawn 2 "run1" := by
  constructor
  · rfl
  · intro h
    rw [show stdClientAwaitStart "start 2 run1" = StartAction.errorWrongCommand from rfl] at h
    exact absurd h (by simp)

/-- Witness for `start_frame_spec` at the concrete frame `start3 run1`. -/
theorem start_frame_spec_witness :
    stdClientAwaitStart (startFrame 3 "run1") = StartAction.spawn 3 "run1" ∧
    startDirsCreated "w" (startFrame 3 "run1") = ["w/run1", "w/run1/processed", "w/run1/out"] := by
  have hspec := start_frame_spec (startFrame 3 "run1") 3 "run1" "w"
  have hs : stdClientAwaitStart (startFrame 3 "run1") = StartAction.spawn 3 "run1" :=
    hspec.1.mpr ⟨by norm_num, ⟨by decide, by decide⟩, rfl⟩
  exact ⟨hs, hspec.2 hs⟩

/-! ## The framed writer (`write_line`)

`TCPSocket::write(std::string, bool)` and `FileDescriptor::write(std::string,
bool)` (src/server/socket.cpp) are line-for-line identical: with
`new_line = true` (the `write_line` operation) they append `'\n'`, hand the
whole buffer to one `send`/`write` call, and compare the kernel's byte count
against the payload size, raising `ConnectionException` on any mismatch.
The number of bytes the kernel accepts is an environment input. -/

/-- Result of a `write_line` call. -/
inductive WriteResult where
  | sent : String → WriteResult
  | connError : WriteResult
deriving DecidableEq

/-- `write_line(s)` with the kernel accepting `sentBytes` bytes of the
payload `s ++ "\n"`: success exactly when every byte was written, otherwise
`ConnectionException`. -/
def writeLine (s : String) (sentBytes : Nat) : WriteResult :=
  let msg := s ++ "\n"
  if sentBytes = msg.length then .sent msg else .connError

/-- C8.  `write_line(s)` either sends exactly `len(s) + 1` bytes (the payload
plus the appended newline) or raises `ConnectionError`; in particular every
short (or over-long) write report is detected and raises `ConnectionError`. -/
theorem write_line_exact_or_error (s : String) (sentBytes : Nat) :
    (writeLine s sentBytes = .sent (s ++ "\n") ∧ sentBytes = s.length + 1 ∨
      writeLine s sentBytes = .connError) ∧
    (sentBytes ≠ s.length + 1 → writeLine s sentBytes = .connError) := by
  have hlen : (s ++ "\n").length = s.length + 1 := by
    rw [String.length_append]
    rfl
  constructor
  · by_cases h : sentBytes = (s ++ "\n").length
    · left
      refine ⟨?_, by omega⟩
      unfold writeLine
      rw [if_pos h]
    · right
      unfold writeLine
      rw [if_neg h]
  · intro h
    unfold writeLine
    rw [if_neg (by omega)]

/-- Witness for `write_line_exact_or_error`: a short write of 2 of the 3
bytes of `"ab\n"` raises `ConnectionError`. -/
theorem write_line_exact_or_error_witness :
    writeLine "ab" 2 = WriteResult.connError :=
  (write_line_exact_or_error "ab" 2).2 (by decide)

/-! ## Flag dispatch in `main_entrypoint`

After `CLI11_PARSE`, `main_entrypoint` (src/main.cpp) checks, in order:
`print_version`; `codes_dst == "srv" && address == ""` (exit 3);
`command_parts.empty()` (exit 3); otherwise it proceeds to read the config
files, create the temporary directory and start the profiling session.
All disk writes (temp dir, roofline config append, session results) happen
on that last branch only. -/

/-- The four ways the post-parse dispatch can go. -/
inductive EntryOutcome where
  | printVersion : EntryOutcome
  | errCodesSrv : EntryOutcome
  | errNoCommand : EntryOutcome
  | runSession : EntryOutcome
deriving DecidableEq

/-- The post-parse `if`/`else if` chain of `main_entrypoint`. -/
def mainEntrypointDispatch (printVersion : Bool) (codesDst address : String)
    (commandParts : List String) : EntryOutcome :=
  if printVersion then .printVersion
  else if codesDst = "srv" ∧ address = "" then .errCodesSrv
  else if commandParts = [] then .errNoCommand
  else .runSession

/-- Exit code of each early-exit branch (`none` for the session branch,
whose exit code is the session's). -/
def entryExitCode : EntryOutcome → Option Nat
  | .printVersion => some 0
  | .errCodesSrv => some 3
  | .errNoCommand => some 3
  | .runSession => none

/-- Whether the branch creates any on-disk session state: only the session
branch reads configs, creates the temp directory and result files. -/
def entryTouchesDisk : EntryOutcome → Bool
  | .runSession => true
  | _ => false

/-- C9.  With the `srv` codes destination and no remote ingest address (and
no `-v` flag, which would exit earlier with code 0), the program exits with
code 3 before any session state is created: the dispatch takes the
`errCodesSrv` branch, whose exit code is 3 and which writes nothing to
disk, regardless of the profiled command. -/
theorem codes_srv_without_address_exit3 (printVersion : Bool)
    (codesDst address : String) (commandParts : List String)
    (hpv : printVersion = false) (hc : codesDst = "srv") (ha : address = "") :
    mainEntrypointDispatch printVersion codesDst address commandParts =
      EntryOutcome.errCodesSrv ∧
    entryExitCode (mainEntrypointDispatch printVersion codesDst address commandParts) =
      some 3 ∧
    entryTouchesDisk (mainEntrypointDispatch printVersion codesDst address commandParts) =
      false := by
  subst hpv hc ha
  have h : mainEntrypointDispatch false "srv" "" commandParts = EntryOutcome.errCodesSrv := by
    unfold mainEntrypointDispatch
    rw [if_neg (by simp), if_pos ⟨rfl, rfl⟩]
  exact ⟨h, by rw [h]; rfl, by rw [h]; rfl⟩

/-- Witness for `codes_srv_without_address_exit3` at the concrete flag set
`-c srv` with no `-a` and command `/bin/true`. -/
theorem codes_srv_without_address_exit3_witness :
    mainEntrypointDispatch false "srv" "" ["/bin/true"] = EntryOutcome.errCodesSrv ∧
    entryExitCode (mainEntrypointDispatch false "srv" "" ["/bin/true"]) = some 3 ∧
    entryTouchesDisk (mainEntrypointDispatch false "srv" "" ["/bin/true"]) = false :=
  codes_srv_without_address_exit3 false "srv" "" ["/bin/true"] rfl rfl rfl

/-! ## JSON values and the merge of subclient results

`StdClient::process` (src/server/client.cpp) merges the JSON results of the
subclients into `metadata` and `final_output`.  JSON values are modelled by
`JVal`; a JSON object is an association list in iteration order (nlohmann's
`items()` iterates a `std::map`, i.e. in sorted key order; the claims do not
depend on that order, and concrete inputs below use sorted keys).

Modelling notes kept throughout: where nlohmann would throw a type error
(e.g. `get<std::string>` on a non-string), the model returns a default and
the theorems carry well-formedness hypotheses instead; `operator[]` on a
missing object key yields `null`, as in nlohmann. -/

inductive JVal where
  | null : JVal
  | str : String → JVal
  | num : Int → JVal
  | arr : List JVal → JVal
  | obj : List (String × JVal) → JVal

/-- `get<std::string>` (theorems guard the non-string case). -/
def asStr : JVal → String
  | .str s => s
  | _ => ""

/-- Iteration of a JSON array (theorems guard the non-array case). -/
def asArr : JVal → List JVal
  | .arr xs => xs
  | _ => []

/-- `items()` of a JSON object (theorems guard the non-object case). -/
def asObj : JVal → List (String × JVal)
  | .obj fs => fs
  | _ => []

/-- `operator[](i)` on an array. -/
def arrGet (v : JVal) (i : Nat) : JVal :=
  match v with
  | .arr xs => xs.getD i .null
  | _ => .null

/-- Object lookup. -/
def objGet : List (String × JVal) → String → Option JVal
  | [], _ => none
  | kv :: rest, k => if kv.1 = k then some kv.2 else objGet rest k

/-- `operator[](key) = value` on an object: assign in place or insert. -/
def objSet : List (String × JVal) → String → JVal → List (String × JVal)
  | [], k, v => [(k, v)]
  | kv :: rest, k, v => if kv.1 = k then (k, v) :: rest else kv :: objSet rest k v

/-- `final_output[pid_tid][field] = value`: `operator[]` creates the inner
object when missing. -/
def foSet : List (String × List (String × JVal)) → String → String → JVal →
    List (String × List (String × JVal))
  | [], pt, f, v => [(pt, [(f, v)])]
  | kv :: rest, pt, f, v =>
    if kv.1 = pt then (pt, objSet kv.2 f v) :: rest else kv :: foSet rest pt f v

/-- Split a character list at every occurrence of `sep` (used for the
newline framing of the transport and for the `pid_tid` keys). -/
def splitOnChar (sep : Char) : List Char → List (List Char)
  | [] => [[]]
  | c :: rest =>
    if c = sep then [] :: splitOnChar sep rest
    else
      match splitOnChar sep rest with
      | [] => [[c]]
      | s :: ss => (c :: s) :: ss

/-- Match of the regex `^(\d+)_(\d+)$` against a `pid_tid` key
(`std::regex_search` with both anchors, hence a full match). -/
def parsePidTid (k : String) : Option (String × String) :=
  match splitOnChar '_' k.data with
  | [a, b] =>
    if a ≠ [] ∧ b ≠ [] ∧ (∀ c ∈ a, isDig c = true) ∧ (∀ c ∈ b, isDig c = true) then
      some (String.mk a, String.mk b)
    else none
  | _ => none

/-- `rfind("sample", 0) == 0`, i.e. the key begins with `sample`. -/
def isSampleKey (k : String) : Bool :=
  List.isPrefixOf "sample".data k.data

/-- The accumulating merge state: the four `metadata` members, the
per-thread `final_output`, and the "known tids" `std::unordered_set`
(modelled as a duplicate-free insertion list; only membership is used). -/
structure MergeState where
  threadTree : List JVal
  callchains : List (String × JVal)
  offcpuRegions : List (String × JVal)
  sampledTimes : List (String × JVal)
  finalOutput : List (String × List (String × JVal))
  tids : List String

def initMergeState : MergeState := ⟨[], [], [], [], [], []⟩

/-- `new_object["identifier"] = tid` after the swap: sets the field on an
object, turns `null` (a missing meta entry) into `{identifier: tid}`. -/
def setIdentifier (v : JVal) (tid : JVal) : JVal :=
  match v with
  | .obj fs => .obj (objSet fs "identifier" tid)
  | _ => .obj [("identifier", tid)]

/-- One iteration of the `syscall_meta` tid loop: push the (swapped-out)
meta entry with its `identifier` onto `thread_tree`, leave the swapped-in
empty object behind in the meta map, and insert the tid into the known-tid
set. -/
def pushMetaTid (acc : MergeState × List (String × JVal)) (tid : JVal) :
    MergeState × List (String × JVal) :=
  let st := acc.1
  let meta := acc.2
  let tidStr := asStr tid
  let old := (objGet meta tidStr).getD JVal.null
  let entry := setIdentifier old tid
  ({ st with
      threadTree := st.threadTree ++ [entry],
      tids := if tidStr ∈ st.tids then st.tids else st.tids ++ [tidStr] },
   objSet meta tidStr (JVal.obj []))

/-- The `syscall_meta` branch: `elem.value()[0]` is the tid list,
`elem.value()[1]` the per-tid meta map. -/
def procSyscallMeta (st : MergeState) (v : JVal) : MergeState :=
  ((asArr (arrGet v 0)).foldl pushMetaTid (st, asObj (arrGet v 1))).1

/-- The `syscall` branch: move every chain-id → frames entry into
`metadata["callchains"]` (`operator[]` + `swap`, i.e. insert-or-assign). -/
def procSyscall (st : MergeState) (v : JVal) : MergeState :=
  (asObj v).foldl (fun st kv => { st with callchains := objSet st.callchains kv.1 kv.2 }) st

/-- The synthetic placeholder thread for an unknown tid:
`{identifier, parent: null, tag: ["?", "<pid>/<tid>", -1, -1]}`. -/
def placeholderEntry (pid tid : String) : JVal :=
  .obj [("identifier", .str tid), ("parent", .null),
        ("tag", .arr [.str "?", .str (pid ++ "/" ++ tid), .num (-1), .num (-1)])]

/-- One `pid_tid` sub-entry of a `sample*` result: a malformed key is
logged and skipped; an unknown tid gets a placeholder pushed onto
`thread_tree` (without entering the known-tid set); then the fields are
routed to `sampled_times`, `offcpu_regions`, dropped (`first_time`) or
`final_output`. -/
def procSampleEntry (st : MergeState) (ptKey : String) (fields : JVal) : MergeState :=
  match parsePidTid ptKey with
  | none => st
  | some (pid, tid) =>
    let st1 := if tid ∈ st.tids then st
               else { st with threadTree := st.threadTree ++ [placeholderEntry pid tid] }
    (asObj fields).foldl (fun st kv =>
      if kv.1 = "sampled_time" then
        { st with sampledTimes := objSet st.sampledTimes ptKey kv.2 }
      else if kv.1 = "offcpu_regions" then
        { st with offcpuRegions := objSet st.offcpuRegions ptKey kv.2 }
      else if kv.1 = "first_time" then st
      else { st with finalOutput := foSet st.finalOutput ptKey kv.1 kv.2 }) st1

/-- The `sample*` branch iterates the `pid_tid` sub-entries. -/
def procSample (st : MergeState) (v : JVal) : MergeState :=
  (asObj v).foldl (fun st kv => procSampleEntry st kv.1 kv.2) st

/-- Merging one subclient result: a first loop over its items handles
`syscall_meta` and `syscall`, a second loop handles every key beginning
with `sample`. -/
def procResult (st : MergeState) (r : List (String × JVal)) : MergeState :=
  let st1 := r.foldl (fun st kv =>
    if kv.1 = "syscall_meta" then procSyscallMeta st kv.2
    else if kv.1 = "syscall" then procSyscall st kv.2
    else st) st
  r.foldl (fun st kv => if isSampleKey kv.1 then procSample st kv.2 else st) st1

/-- The merge over all subclient results, in subclient-creation order. -/
def mergeResults (results : List (List (String × JVal))) : MergeState :=
  results.foldl procResult initMergeState

/-! ## The timestamp rebase (C4)

After the merge, every off-CPU region start is replaced by
`(unsigned long long)ts - profile_start_tstamp` (u64 arithmetic, i.e.
subtraction modulo `2 ^ 64`). -/

/-- The C++ conversion of a JSON number to `unsigned long long`. -/
def u64OfInt (n : Int) : Nat := (n % (2 ^ 64 : Int)).toNat

/-- `(unsigned long long)ts - profile_start_tstamp` modulo `2 ^ 64`
(`profile_start_tstamp` is itself an `unsigned long long`). -/
def rebaseTs (epoch : Nat) (ts : Int) : Nat :=
  (u64OfInt ts + (2 ^ 64 - epoch % 2 ^ 64)) % 2 ^ 64

/-- `regions.value()[i][0] = (unsigned long long)regions.value()[i][0] - tstamp`
for a single region entry `[ts, duration, ...]`. -/
def rebaseRegion (epoch : Nat) (r : JVal) : JVal :=
  match r with
  | .arr (.num ts :: rest) => .arr (.num (Int.ofNat (rebaseTs epoch ts)) :: rest)
  | other => other

/-- The rebase loop over one `offcpu_regions` value. -/
def rebaseRegions (epoch : Nat) : JVal → JVal
  | .arr rs => .arr (rs.map (rebaseRegion epoch))
  | v => v

/-- The rebase pass over `metadata["offcpu_regions"]`. -/
def rebaseState (epoch : Nat) (st : MergeState) : MergeState :=
  { st with offcpuRegions := st.offcpuRegions.map (fun kv => (kv.1, rebaseRegions epoch kv.2)) }

/-- The merge followed by the rebase, as in `StdClient::process`. -/
def mergeAndRebase (epoch : Nat) (results : List (List (String × JVal))) : MergeState :=
  rebaseState epoch (mergeResults results)

/-- The start timestamp of a region entry `[ts, duration, ...]`. -/
def startOf? (r : JVal) : Option Int :=
  match r with
  | .arr (.num ts :: _) => some ts
  | _ => none

/-- The start timestamps of one `offcpu_regions` value. -/
def startsOf : JVal → List Int
  | .arr rs => rs.filterMap startOf?
  | _ => []

/-- All region start timestamps in `metadata["offcpu_regions"]`. -/
def regionStarts (st : MergeState) : List Int :=
  (st.offcpuRegions.map (fun kv => startsOf kv.2)).flatten

/-- A well-formed region entry `[ts, duration, ...]` whose start satisfies
`epoch ≤ ts < 2 ^ 64`. -/
def wfRegionB (epoch : Nat) (r : JVal) : Bool :=
  match startOf? r with
  | some ts => decide ((epoch : Int) ≤ ts) && decide (ts < (2 ^ 64 : Int))
  | none => false

/-- A well-formed `offcpu_regions` value: an array of well-formed regions. -/
def wfRegionsB (epoch : Nat) : JVal → Bool
  | .arr rs => rs.all (wfRegionB epoch)
  | _ => false

theorem rebaseTs_eq {epoch : Nat} {ts : Int} (h1 : (epoch : Int) ≤ ts)
    (h2 : ts < 2 ^ 64) : (rebaseTs epoch ts : Int) = ts - epoch := by
  have hN : (2 : Nat) ^ 64 = 18446744073709551616 := by norm_num
  have hZ : (2 : Int) ^ 64 = 18446744073709551616 := by norm_num
  simp only [rebaseTs, u64OfInt, hN, hZ] at *
  omega

theorem startOf?_rebaseRegion {epoch : Nat} {r : JVal} (h : wfRegionB epoch r = true) :
    ∃ ts, startOf? r = some ts ∧ (epoch : Int) ≤ ts ∧ ts < 2 ^ 64 ∧
      startOf? (rebaseRegion epoch r) = some (ts - epoch) := by
  unfold wfRegionB at h
  cases hs : startOf? r with
  | none => rw [hs] at h; exact absurd h (by simp)
  | some ts =>
    rw [hs] at h
    simp only [Bool.and_eq_true, decide_eq_true_eq] at h
    refine ⟨ts, rfl, h.1, h.2, ?_⟩
    cases r with
    | arr xs =>
      cases xs with
      | nil => exact absurd hs (by simp [startOf?])
      | cons x rest =>
        cases x with
        | num ts' =>
          have hts : ts' = ts := by
            simpa [startOf?] using hs
          subst hts
          simp only [rebaseRegion, startOf?, Option.some.injEq]
          exact rebaseTs_eq h.1 h.2
        | null => exact absurd hs (by simp [startOf?])
        | str _ => exact absurd hs (by simp [startOf?])
        | arr _ => exact absurd hs (by simp [startOf?])
        | obj _ => exact absurd hs (by simp [startOf?])
    | null => exact absurd hs (by simp [startOf?])
    | str _ => exact absurd hs (by simp [startOf?])
    | num _ => exact absurd hs (by simp [startOf?])
    | obj _ => exact absurd hs (by simp [startOf?])

theorem filterMap_startOf_rebase {epoch : Nat} (rs : List JVal)
    (h : ∀ r ∈ rs, wfRegionB epoch r = true) :
    (rs.map (rebaseRegion epoch)).filterMap startOf? =
      (rs.filterMap startOf?).map (fun ts => ts - (epoch : Int)) := by
  induction rs with
  | nil => rfl
  | cons r rest ih =>
    obtain ⟨ts, hts, _, _, hreb⟩ := startOf?_rebaseRegion (h r (List.mem_cons_self r rest))
    have ihr := ih (fun x hx => h x (List.mem_cons_of_mem r hx))
    simp only [List.map_cons, List.filterMap_cons, hts, hreb]
    rw [ihr]

theorem startsOf_rebaseRegions {epoch : Nat} {v : JVal} (h : wfRegionsB epoch v = true) :
    startsOf (rebaseRegions epoch v) = (startsOf v).map (fun ts => ts - (epoch : Int)) := by
  cases v with
  | arr rs =>
    simp only [wfRegionsB, List.all_eq_true] at h
    simp only [rebaseRegions, startsOf]
    exact filterMap_startOf_rebase rs h
  | null => exact absurd h (by simp [wfRegionsB])
  | str s => exact absurd h (by simp [wfRegionsB])
  | num n => exact absurd h (by simp [wfRegionsB])
  | obj fs => exact absurd h (by simp [wfRegionsB])

theorem startsOf_wf {epoch : Nat} {v : JVal} (h : wfRegionsB epoch v = true) :
    ∀ ts ∈ startsOf v, (epoch : Int) ≤ ts ∧ ts < 2 ^ 64 := by
  cases v with
  | arr rs =>
    intro ts hts
    simp only [startsOf, List.mem_filterMap] at hts
    obtain ⟨r, hr, hrts⟩ := hts
    simp only [wfRegionsB, List.all_eq_true] at h
    have hwf := h r hr
    unfold wfRegionB at hwf
    rw [hrts] at hwf
    simpa using hwf
  | null => exact absurd h (by simp [wfRegionsB])
  | str s => exact absurd h (by simp [wfRegionsB])
  | num n => exact absurd h (by simp [wfRegionsB])
  | obj fs => exact absurd h (by simp [wfRegionsB])

theorem regionStarts_aux {epoch : Nat} (l : List (String × JVal))
    (h : ∀ kv ∈ l, wfRegionsB epoch kv.2 = true) :
    (((l.map (fun kv => (kv.1, rebaseRegions epoch kv.2))).map
        (fun kv => startsOf kv.2)).flatten) =
      ((l.map (fun kv => startsOf kv.2)).flatten).map (fun ts => ts - (epoch : Int)) := by
  induction l with
  | nil => rfl
  | cons kv rest ih =>
    have hkv := h kv (List.mem_cons_self kv rest)
    have ihr := ih (fun x hx => h x (List.mem_cons_of_mem kv hx))
    simp only [List.map_cons, List.flatten_cons, List.map_append]
    rw [startsOf_rebaseRegions hkv, ihr]

/-- C4.  After all subclient results are merged, every off-CPU region start
`ts` is replaced by `ts - profile_start_tstamp` in unsigned 64-bit
arithmetic; under the protocol contract that the epoch is at most every
observed start (and starts fit in a `u64`), the rebased starts are exactly
the original starts minus the epoch, and in particular every rebased
`offcpu_regions[*][i][0]` is nonnegative. -/
theorem offcpu_rebase_nonneg (epoch : Nat) (results : List (List (String × JVal)))
    (hwf : ∀ kv ∈ (mergeResults results).offcpuRegions, wfRegionsB epoch kv.2 = true) :
    regionStarts (mergeAndRebase epoch results) =
      (regionStarts (mergeResults results)).map (fun ts => ts - (epoch : Int)) ∧
    ∀ s ∈ regionStarts (mergeAndRebase epoch results), 0 ≤ s := by
  have heq : regionStarts (mergeAndRebase epoch results) =
      (regionStarts (mergeResults results)).map (fun ts => ts - (epoch : Int)) := by
    simp only [mergeAndRebase, regionStarts, rebaseState]
    exact regionStarts_aux _ hwf
  refine ⟨heq, ?_⟩
  intro s hs
  rw [heq] at hs
  simp only [List.mem_map] at hs
  obtain ⟨ts, hts, rfl⟩ := hs
  have hbound : (epoch : Int) ≤ ts := by
    simp only [regionStarts, List.mem_flatten, List.mem_map] at hts
    obtain ⟨l, ⟨kv, hkv, rfl⟩, htl⟩ := hts
    exact (startsOf_wf (hwf kv hkv) ts htl).1
  omega

/-- Witness for `offcpu_rebase_nonneg`: the spec's epoch-rebase scenario,
a single off-CPU region with start `1700000000000000500` and epoch
`1700000000000000000`, rebased to exactly `500`. -/
theorem offcpu_rebase_nonneg_witness :
    regionStarts (mergeAndRebase 1700000000000000000
      [[("sample_main", JVal.obj [("1_2", JVal.obj [("offcpu_regions",
          JVal.arr [JVal.arr [JVal.num 1700000000000000500, JVal.num 100]])])])]]) =
      [(500 : Int)] := by
  have h := offcpu_rebase_nonneg 1700000000000000000
      [[("sample_main", JVal.obj [("1_2", JVal.obj [("offcpu_regions",
          JVal.arr [JVal.arr [JVal.num 1700000000000000500, JVal.num 100]])])])]]
      (by decide)
  exact h.1.trans (by decide)

/-! ## Callchain merging (C6)

The `syscall` branch of the merge writes every chain-id → frames entry into
`metadata["callchains"]` by `operator[]` + `swap`: an insert-or-assign with
no duplicate check, so a chain id delivered by two results is silently
overwritten by the later one. -/

/-- The `syscall` items of one result, in iteration order. -/
def syscallItems (r : List (String × JVal)) : List (String × JVal) :=
  r.flatMap (fun kv => if kv.1 = "syscall" then asObj kv.2 else [])

/-- Insert-or-assign of a batch of chain entries. -/
def chainSet (m : List (String × JVal)) (items : List (String × JVal)) :
    List (String × JVal) :=
  items.foldl (fun m kv => objSet m kv.1 kv.2) m

/-- The last value delivered for a chain id across a batch of items. -/
def lastChain (items : List (String × JVal)) (cid : String) : Option JVal :=
  ((items.reverse).find? (fun kv => decide (kv.1 = cid))).map (fun kv => kv.2)

theorem objGet_objSet_self (m : List (String × JVal)) (k : String) (v : JVal) :
    objGet (objSet m k v) k = some v := by
  induction m with
  | nil => simp [objSet, objGet]
  | cons kv rest ih =>
    by_cases h : kv.1 = k
    · simp [objSet, objGet, h]
    · simp only [objSet, if_neg h, objGet]
      exact ih

theorem objGet_objSet_ne (m : List (String × JVal)) {k k' : String} (v : JVal)
    (h : k' ≠ k) : objGet (objSet m k v) k' = objGet m k' := by
  induction m with
  | nil => simp [objSet, objGet, Ne.symm h]
  | cons kv rest ih =>
    by_cases hk : kv.1 = k
    · subst hk
      simp [objSet, objGet, h, Ne.symm h]
    · simp only [objSet, if_neg hk, objGet]
      by_cases hk' : kv.1 = k'
      · rw [if_pos hk', if_pos hk']
      · rw [if_neg hk', if_neg hk']
        exact ih

theorem objGet_chainSet (items : List (String × JVal)) (m : List (String × JVal))
    (cid : String) :
    objGet (chainSet m items) cid =
      ((lastChain items cid).orElse (fun _ => objGet m cid)) := by
  induction items generalizing m with
  | nil => simp [chainSet, lastChain, Option.orElse]
  | cons kv rest ih =>
    have hstep : chainSet m (kv :: rest) = chainSet (objSet m kv.1 kv.2) rest := rfl
    rw [hstep, ih]
    have hlast : lastChain (kv :: rest) cid =
        ((lastChain rest cid).orElse
          (fun _ => if kv.1 = cid then some kv.2 else none)) := by
      unfold lastChain
      simp only [List.reverse_cons, List.find?_append]
      cases hfind : (rest.reverse).find? (fun kv => decide (kv.1 = cid)) with
      | some x => simp [Option.orElse]
      | none =>
        simp only [Option.orElse, Option.map]
        by_cases h : kv.1 = cid
        · simp [List.find?, h]
        · simp [List.find?, h]
    rw [hlast]
    cases hrest : lastChain rest cid with
    | some v => simp [Option.orElse]
    | none =>
      simp only [Option.orElse]
      by_cases h : kv.1 = cid
      · subst h
        simp [objGet_objSet_self]
      · simp only [if_neg h]
        rw [objGet_objSet_ne _ _ (fun hc => h hc.symm)]

theorem procSyscall_callchains (st : MergeState) (v : JVal) :
    (procSyscall st v).callchains = chainSet st.callchains (asObj v) ∧
    (procSyscall st v).threadTree = st.threadTree ∧
    (procSyscall st v).tids = st.tids := by
  unfold procSyscall chainSet
  generalize asObj v = l
  induction l generalizing st with
  | nil => exact ⟨rfl, rfl, rfl⟩
  | cons kv rest ih =>
    simp only [List.foldl_cons]
    exact ih { st with callchains := objSet st.callchains kv.1 kv.2 }

theorem procSyscallMeta_callchains (st : MergeState) (v : JVal) :
    (procSyscallMeta st v).callchains = st.callchains := by
  unfold procSyscallMeta
  generalize asObj (arrGet v 1) = meta
  generalize asArr (arrGet v 0) = l
  induction l generalizing st meta with
  | nil => rfl
  | cons t rest ih =>
    simp only [List.foldl_cons]
    exact ih _ _

theorem procSampleEntry_callchains (st : MergeState) (k : String) (v : JVal) :
    (procSampleEntry st k v).callchains = st.callchains := by
  unfold procSampleEntry
  cases parsePidTid k with
  | none => rfl
  | some pt =>
    obtain ⟨pid, tid⟩ := pt
    simp only
    generalize hst1 : (if tid ∈ st.tids then st
        else { st with threadTree := st.threadTree ++ [placeholderEntry pid tid] }) = st1
    have hcc : st1.callchains = st.callchains := by
      rw [← hst1]
      split <;> rfl
    rw [← hcc]
    generalize asObj v = l
    clear hst1 hcc
    induction l generalizing st1 with
    | nil => rfl
    | cons kv rest ih =>
      simp only [List.foldl_cons]
      rw [ih]
      split
      · rfl
      · split
        · rfl
        · split <;> rfl

theorem procSample_callchains (st : MergeState) (v : JVal) :
    (procSample st v).callchains = st.callchains := by
  unfold procSample
  generalize asObj v = l
  induction l generalizing st with
  | nil => rfl
  | cons kv rest ih =>
    simp only [List.foldl_cons]
    rw [ih, procSampleEntry_callchains]

theorem procResult_callchains (st : MergeState) (r : List (String × JVal)) :
    (procResult st r).callchains = chainSet st.callchains (syscallItems r) := by
  unfold procResult
  have h2 : ∀ (l : List (String × JVal)) (st : MergeState),
      (l.foldl (fun st kv => if isSampleKey kv.1 then procSample st kv.2 else st)
        st).callchains = st.callchains := by
    intro l
    induction l with
    | nil => intro st; rfl
    | cons kv rest ih =>
      intro st
      simp only [List.foldl_cons]
      rw [ih]
      split
      · rw [procSample_callchains]
      · rfl
  rw [h2]
  induction r generalizing st with
  | nil => rfl
  | cons kv rest ih =>
    simp only [List.foldl_cons, syscallItems, List.flatMap_cons]
    by_cases hm : kv.1 = "syscall_meta"
    · rw [if_pos hm]
      have : ¬ kv.1 = "syscall" := by rw [hm]; decide
      rw [if_neg this]
      simp only [List.nil_append]
      have := ih (procSyscallMeta st kv.2)
      simp only [syscallItems] at this
      rw [this, procSyscallMeta_callchains]
    · rw [if_neg hm]
      by_cases hs : kv.1 = "syscall"
      · rw [if_pos hs, if_pos hs]
        have := ih (procSyscall st kv.2)
        simp only [syscallItems] at this
        rw [this, (procSyscall_callchains st kv.2).1]
        unfold chainSet
        rw [List.foldl_append]
      · rw [if_neg hs, if_neg hs]
        simp only [List.nil_append]
        exact ih st

theorem mergeResults_callchains (rs : List (List (String × JVal))) :
    (mergeResults rs).callchains = chainSet [] (rs.flatMap syscallItems) := by
  unfold mergeResults
  have haux : ∀ (rs : List (List (String × JVal))) (st : MergeState),
      (rs.foldl procResult st).callchains =
        chainSet st.callchains (rs.flatMap syscallItems) := by
    intro rs
    induction rs with
    | nil => intro st; rfl
    | cons r rest ih =>
      intro st
      simp only [List.foldl_cons, List.flatMap_cons]
      rw [ih, procResult_callchains]
      unfold chainSet
      rw [List.foldl_append]
  exact haux rs initMergeState

/-- C6 (amended).  During the merge, for every subclient result whose key is
`syscall`, all of its chain-id-to-frames entries are merged into
`metadata.callchains` by insert-or-assign: the value recorded for a chain id
is the one delivered last in result-processing order.  There is **no**
assertion; a chain id occurring in two results is silently overwritten by
the later result rather than being reported as an error. -/
theorem callchains_last_writer_wins (rs : List (List (String × JVal))) (cid : String) :
    objGet (mergeResults rs).callchains cid = lastChain (rs.flatMap syscallItems) cid := by
  rw [mergeResults_callchains, objGet_chainSet]
  cases h : lastChain (rs.flatMap syscallItems) cid with
  | some v => simp [Option.orElse]
  | none => simp [Option.orElse, objGet]

/-- C6 counterexample.  Two results deliver chain id `5`; the merge
succeeds silently and `metadata.callchains["5"]` holds the second result's
frames — no assertion or error is raised, contradicting the claimed
duplicate-chain-id assertion. -/
theorem callchains_silent_overwrite :
    objGet (mergeResults [[("syscall", JVal.obj [("5", JVal.arr [JVal.num 1])])],
                          [("syscall", JVal.obj [("5", JVal.arr [JVal.num 2])])]]).callchains
      "5" = some (JVal.arr [JVal.num 2]) := rfl

/-! ## Thread-tree entries (C3)

`thread_tree` receives one entry per element of each `syscall_meta` tid
list, plus one synthetic placeholder per `sample*` `pid_tid` entry whose tid
is not in the known-tid set at that moment.  The placeholder branch does
**not** insert the tid into the set. -/

/-- The tid strings of a `syscall_meta` value (element `[0]`). -/
def tidStrs (v : JVal) : List String :=
  (asArr (arrGet v 0)).map asStr

/-- Tids contributed to `thread_tree` by the `syscall_meta` keys of one
result, in iteration order. -/
def metaTids (r : List (String × JVal)) : List String :=
  r.flatMap (fun kv => if kv.1 = "syscall_meta" then tidStrs kv.2 else [])

/-- Tids contributed by the `syscall_meta` keys of all results, in
subclient order. -/
def allMetaTids (rs : List (List (String × JVal))) : List String :=
  rs.flatMap metaTids

/-- The tids of the well-formed `pid_tid` keys of one `sample*` value. -/
def sampleTidsOfVal (v : JVal) : List String :=
  (asObj v).filterMap (fun kv => (parsePidTid kv.1).map (fun pt => pt.2))

/-- The tids of all `sample*` `pid_tid` keys of one result. -/
def sampleTids (r : List (String × JVal)) : List String :=
  r.flatMap (fun kv => if isSampleKey kv.1 then sampleTidsOfVal kv.2 else [])

/-- Every sample tid of each result is already known when that result is
processed: it occurs in a `syscall_meta` tid list of the same or an earlier
result (`acc` accumulates the earlier lists). -/
def coveredB : List String → List (List (String × JVal)) → Bool
  | _, [] => true
  | acc, r :: rest =>
    (sampleTids r).all (fun t => decide (t ∈ acc ++ metaTids r)) &&
    coveredB (acc ++ metaTids r) rest

/-- The `identifier` field of a thread-tree entry, as a string. -/
def identOfEntry (e : JVal) : String :=
  asStr ((objGet (asObj e) "identifier").getD JVal.null)

/-- The identifiers of `metadata["thread_tree"]`, in push order. -/
def treeIdentStrs (st : MergeState) : List String :=
  st.threadTree.map identOfEntry

theorem identOfEntry_setIdentifier (v tid : JVal) :
    identOfEntry (setIdentifier v tid) = asStr tid := by
  cases v with
  | obj fs =>
    simp only [setIdentifier, identOfEntry, asObj]
    rw [objGet_objSet_self]
    rfl
  | null => rfl
  | str _ => rfl
  | num _ => rfl
  | arr _ => rfl

theorem foldl_pushMetaTid (l : List JVal) :
    ∀ (st : MergeState) (meta : List (String × JVal)),
    treeIdentStrs ((l.foldl pushMetaTid (st, meta)).1) =
      treeIdentStrs st ++ l.map asStr ∧
    (∀ t, t ∈ (l.foldl pushMetaTid (st, meta)).1.tids ↔
      t ∈ st.tids ++ l.map asStr) := by
  induction l with
  | nil =>
    intro st meta
    simp [treeIdentStrs]
  | cons tid rest ih =>
    intro st meta
    simp only [List.foldl_cons, List.map_cons]
    obtain ⟨ih1, ih2⟩ := ih (pushMetaTid (st, meta) tid).1 (pushMetaTid (st, meta) tid).2
    constructor
    · rw [ih1]
      have hstep : treeIdentStrs (pushMetaTid (st, meta) tid).1 =
          treeIdentStrs st ++ [asStr tid] := by
        simp only [pushMetaTid, treeIdentStrs, List.map_append, List.map_cons, List.map_nil]
        rw [identOfEntry_setIdentifier]
      rw [hstep, List.append_assoc]
      rfl
    · intro t
      rw [ih2 t]
      simp only [pushMetaTid, List.mem_append, List.mem_cons]
      by_cases h : asStr tid ∈ st.tids
      · simp only [if_pos h, List.mem_append]
        constructor
        · tauto
        · rintro (h' | h' | h')
          · tauto
          · subst h'; tauto
          · tauto
      · simp only [if_neg h, List.mem_append, List.mem_singleton]
        tauto

theorem procSyscallMeta_tree (st : MergeState) (v : JVal) :
    treeIdentStrs (procSyscallMeta st v) = treeIdentStrs st ++ tidStrs v ∧
    (∀ t, t ∈ (procSyscallMeta st v).tids ↔ t ∈ st.tids ++ tidStrs v) := by
  unfold procSyscallMeta tidStrs
  exact foldl_pushMetaTid (asArr (arrGet v 0)) st (asObj (arrGet v 1))

theorem sampleFieldFold_pres (k : String) (l : List (String × JVal)) :
    ∀ st : MergeState,
    (l.foldl (fun st kv =>
      if kv.1 = "sampled_time" then
        { st with sampledTimes := objSet st.sampledTimes k kv.2 }
      else if kv.1 = "offcpu_regions" then
        { st with offcpuRegions := objSet st.offcpuRegions k kv.2 }
      else if kv.1 = "first_time" then st
      else { st with finalOutput := foSet st.finalOutput k kv.1 kv.2 }) st).threadTree
      = st.threadTree ∧
    (l.foldl (fun st kv =>
      if kv.1 = "sampled_time" then
        { st with sampledTimes := objSet st.sampledTimes k kv.2 }
      else if kv.1 = "offcpu_regions" then
        { st with offcpuRegions := objSet st.offcpuRegions k kv.2 }
      else if kv.1 = "first_time" then st
      else { st with finalOutput := foSet st.finalOutput k kv.1 kv.2 }) st).tids
      = st.tids := by
  induction l with
  | nil => intro st; exact ⟨rfl, rfl⟩
  | cons kv rest ih =>
    intro st
    simp only [List.foldl_cons]
    obtain ⟨ih1, ih2⟩ := ih (if kv.1 = "sampled_time" then
        { st with sampledTimes := objSet st.sampledTimes k kv.2 }
      else if kv.1 = "offcpu_regions" then
        { st with offcpuRegions := objSet st.offcpuRegions k kv.2 }
      else if kv.1 = "first_time" then st
      else { st with finalOutput := foSet st.finalOutput k kv.1 kv.2 })
    rw [ih1, ih2]
    constructor
    · split
      · rfl
      · split
        · rfl
        · split
          · rfl
          · rfl
    · split
      · rfl
      · split
        · rfl
        · split
          · rfl
          · rfl

theorem procSampleEntry_tree (st : MergeState) (k : String) (v : JVal)
    (hcov : ∀ pt, parsePidTid k = some pt → pt.2 ∈ st.tids) :
    treeIdentStrs (procSampleEntry st k v) = treeIdentStrs st ∧
    (procSampleEntry st k v).tids = st.tids := by
  unfold procSampleEntry
  cases hp : parsePidTid k with
  | none => exact ⟨rfl, rfl⟩
  | some pt =>
    obtain ⟨pid, tid⟩ := pt
    have htid : tid ∈ st.tids := hcov (pid, tid) hp
    simp only [if_pos htid]
    obtain ⟨h1, h2⟩ := sampleFieldFold_pres k (asObj v) st
    exact ⟨congrArg (List.map identOfEntry) h1, h2⟩

theorem procSampleList_tree (l : List (String × JVal)) :
    ∀ st : MergeState,
    (∀ t ∈ l.filterMap (fun kv => (parsePidTid kv.1).map (fun pt => pt.2)),
      t ∈ st.tids) →
    treeIdentStrs (l.foldl (fun st kv => procSampleEntry st kv.1 kv.2) st) =
      treeIdentStrs st ∧
    (l.foldl (fun st kv => procSampleEntry st kv.1 kv.2) st).tids = st.tids := by
  induction l with
  | nil => intro st _; exact ⟨rfl, rfl⟩
  | cons kv rest ih =>
    intro st hcov
    simp only [List.foldl_cons]
    have hkv : ∀ pt, parsePidTid kv.1 = some pt → pt.2 ∈ st.tids := by
      intro pt hpt
      apply hcov
      simp only [List.filterMap_cons, hpt, Option.map_some]
      exact List.mem_cons_self _ _
    obtain ⟨e1, e2⟩ := procSampleEntry_tree st kv.1 kv.2 hkv
    have hrest : ∀ t ∈ rest.filterMap
        (fun kv => (parsePidTid kv.1).map (fun pt => pt.2)),
        t ∈ (procSampleEntry st kv.1 kv.2).tids := by
      intro t ht
      rw [e2]
      apply hcov
      simp only [List.filterMap_cons]
      cases parsePidTid kv.1 with
      | none => exact ht
      | some pt => exact List.mem_cons_of_mem _ ht
    obtain ⟨r1, r2⟩ := ih (procSampleEntry st kv.1 kv.2) hrest
    exact ⟨r1.trans e1, r2.trans e2⟩

theorem procSample_tree (st : MergeState) (v : JVal)
    (hcov : ∀ t ∈ sampleTidsOfVal v, t ∈ st.tids) :
    treeIdentStrs (procSample st v) = treeIdentStrs st ∧
    (procSample st v).tids = st.tids := by
  unfold procSample
  exact procSampleList_tree (asObj v) st hcov

theorem loop1_tree (r : List (String × JVal)) :
    ∀ st : MergeState,
    treeIdentStrs (r.foldl (fun st kv =>
      if kv.1 = "syscall_meta" then procSyscallMeta st kv.2
      else if kv.1 = "syscall" then procSyscall st kv.2
      else st) st) = treeIdentStrs st ++ metaTids r ∧
    (∀ t, t ∈ (r.foldl (fun st kv =>
      if kv.1 = "syscall_meta" then procSyscallMeta st kv.2
      else if kv.1 = "syscall" then procSyscall st kv.2
      else st) st).tids ↔ t ∈ st.tids ++ metaTids r) := by
  induction r with
  | nil =>
    intro st
    simp [metaTids, treeIdentStrs]
  | cons kv rest ih =>
    intro st
    simp only [List.foldl_cons, metaTids, List.flatMap_cons]
    by_cases hm : kv.1 = "syscall_meta"
    · rw [if_pos hm, if_pos hm]
      obtain ⟨s1, s2⟩ := procSyscallMeta_tree st kv.2
      obtain ⟨i1, i2⟩ := ih (procSyscallMeta st kv.2)
      constructor
      · rw [i1, s1]
        simp only [metaTids, List.append_assoc]
      · intro t
        rw [i2 t]
        simp only [List.mem_append, s2 t, metaTids, List.mem_append]
        tauto
    · rw [if_neg hm, if_neg hm]
      by_cases hs : kv.1 = "syscall"
      · rw [if_pos hs]
        obtain ⟨_, s1, s2⟩ := procSyscall_callchains st kv.2
        obtain ⟨i1, i2⟩ := ih (procSyscall st kv.2)
        constructor
        · rw [i1]
          simp only [treeIdentStrs, s1, metaTids, List.nil_append]
        · intro t
          rw [i2 t, s2]
          simp [metaTids]
      · rw [if_neg hs]
        obtain ⟨i1, i2⟩ := ih st
        simp only [List.nil_append]
        exact ⟨i1, i2⟩

theorem loop2_tree (r : List (String × JVal)) :
    ∀ st : MergeState, (∀ t ∈ sampleTids r, t ∈ st.tids) →
    treeIdentStrs (r.foldl (fun st kv =>
      if isSampleKey kv.1 then procSample st kv.2 else st) st) = treeIdentStrs st ∧
    (r.foldl (fun st kv =>
      if isSampleKey kv.1 then procSample st kv.2 else st) st).tids = st.tids := by
  induction r with
  | nil => intro st _; exact ⟨rfl, rfl⟩
  | cons kv rest ih =>
    intro st hcov
    simp only [List.foldl_cons]
    by_cases hk : isSampleKey kv.1
    · rw [if_pos hk]
      have hcv : ∀ t ∈ sampleTidsOfVal kv.2, t ∈ st.tids := by
        intro t ht
        apply hcov
        simp only [sampleTids, List.flatMap_cons, if_pos hk, List.mem_append]
        exact Or.inl ht
      obtain ⟨e1, e2⟩ := procSample_tree st kv.2 hcv
      have hrest : ∀ t ∈ sampleTids rest, t ∈ (procSample st kv.2).tids := by
        intro t ht
        rw [e2]
        apply hcov
        simp only [sampleTids, List.flatMap_cons, if_pos hk, List.mem_append]
        exact Or.inr ht
      obtain ⟨r1, r2⟩ := ih (procSample st kv.2) hrest
      exact ⟨r1.trans e1, r2.trans e2⟩
    · rw [if_neg hk]
      have hrest : ∀ t ∈ sampleTids rest, t ∈ st.tids := by
        intro t ht
        apply hcov
        simp only [sampleTids, List.flatMap_cons, if_neg hk, List.nil_append]
        exact ht
      exact ih st hrest

theorem procResult_tree (st : MergeState) (r : List (String × JVal))
    (hcov : ∀ t ∈ sampleTids r, t ∈ st.tids ++ metaTids r) :
    treeIdentStrs (procResult st r) = treeIdentStrs st ++ metaTids r ∧
    (∀ t, t ∈ (procResult st r).tids ↔ t ∈ st.tids ++ metaTids r) := by
  unfold procResult
  obtain ⟨l1, l2⟩ := loop1_tree r st
  have hcov1 : ∀ t ∈ sampleTids r,
      t ∈ (r.foldl (fun st kv =>
        if kv.1 = "syscall_meta" then procSyscallMeta st kv.2
        else if kv.1 = "syscall" then procSyscall st kv.2
        else st) st).tids := by
    intro t ht
    exact (l2 t).mpr (hcov t ht)
  obtain ⟨m1, m2⟩ := loop2_tree r _ hcov1
  constructor
  · rw [m1, l1]
  · intro t
    rw [m2, l2 t]

theorem coveredB_congr (rs : List (List (String × JVal))) :
    ∀ acc₁ acc₂ : List String, (∀ t, t ∈ acc₁ ↔ t ∈ acc₂) →
    coveredB acc₁ rs = coveredB acc₂ rs := by
  induction rs with
  | nil => intro _ _ _; rfl
  | cons r rest ih =>
    intro acc₁ acc₂ h
    simp only [coveredB]
    have hf : (fun t => decide (t ∈ acc₁ ++ metaTids r)) =
        (fun t => decide (t ∈ acc₂ ++ metaTids r)) := by
      funext t
      apply decide_eq_decide.mpr
      simp only [List.mem_append, h t]
    rw [hf, ih (acc₁ ++ metaTids r) (acc₂ ++ metaTids r)
      (fun t => by simp only [List.mem_append, h t])]

theorem merge_tree_aux (rs : List (List (String × JVal))) :
    ∀ st : MergeState, coveredB st.tids rs = true →
    treeIdentStrs (rs.foldl procResult st) = treeIdentStrs st ++ allMetaTids rs ∧
    (∀ t, t ∈ (rs.foldl procResult st).tids ↔ t ∈ st.tids ++ allMetaTids rs) := by
  induction rs with
  | nil =>
    intro st _
    simp [allMetaTids]
  | cons r rest ih =>
    intro st hc
    simp only [coveredB, Bool.and_eq_true] at hc
    obtain ⟨hall, hrest⟩ := hc
    have hcov : ∀ t ∈ sampleTids r, t ∈ st.tids ++ metaTids r := by
      intro t ht
      have := List.all_eq_true.mp hall t ht
      exact of_decide_eq_true this
    obtain ⟨p1, p2⟩ := procResult_tree st r hcov
    have hcong : coveredB (procResult st r).tids rest =
        coveredB (st.tids ++ metaTids r) rest :=
      coveredB_congr rest _ _ p2
    obtain ⟨i1, i2⟩ := ih (procResult st r) (by rw [hcong]; exact hrest)
    simp only [List.foldl_cons, allMetaTids, List.flatMap_cons]
    constructor
    · rw [i1, p1]
      simp only [allMetaTids, List.append_assoc]
    · intro t
      rw [i2 t]
      simp only [List.mem_append, p2 t, List.mem_append, allMetaTids]
      tauto

/-- C3 (amended).  After the merge, `metadata.thread_tree` contains exactly
one entry per TID — its identifiers are, in order, exactly the
concatenation of the thread-tree probe's TID lists, with no duplicates —
**provided** (i) the union of the `syscall_meta` TID lists is
duplicate-free, and (ii) every `sample*` `pid_tid` TID occurs in a
`syscall_meta` TID list of the same or an earlier result (so no synthetic
placeholder is created).  Without (ii), the placeholder branch — which does
not record the TID in the known-tid set — can push duplicate entries. -/
theorem thread_tree_unique_of_covered (rs : List (List (String × JVal)))
    (h1 : (allMetaTids rs).Nodup) (h2 : coveredB [] rs = true) :
    treeIdentStrs (mergeResults rs) = allMetaTids rs ∧
    (treeIdentStrs (mergeResults rs)).Nodup := by
  obtain ⟨p1, _⟩ := merge_tree_aux rs initMergeState h2
  unfold mergeResults
  constructor
  · rw [p1]
    rfl
  · rw [p1]
    exact h1

/-- C3 counterexample.  A single subclient result with two `sample*` keys
that share the `pid_tid` key `1_2` (and no thread-tree data): the merge
pushes two placeholder entries with identifier `2` onto
`metadata.thread_tree`, so entries are not unique per TID. -/
theorem thread_tree_duplicate_placeholder :
    treeIdentStrs (mergeResults
      [[("sample_a", JVal.obj [("1_2", JVal.obj [])]),
        ("sample_b", JVal.obj [("1_2", JVal.obj [])])]]) = ["2", "2"] ∧
    ¬ (treeIdentStrs (mergeResults
      [[("sample_a", JVal.obj [("1_2", JVal.obj [])]),
        ("sample_b", JVal.obj [("1_2", JVal.obj [])])]])).Nodup := by
  constructor
  · rfl
  · intro h
    rw [show treeIdentStrs (mergeResults
      [[("sample_a", JVal.obj [("1_2", JVal.obj [])]),
        ("sample_b", JVal.obj [("1_2", JVal.obj [])])]]) = ["2", "2"] from rfl] at h
    simp at h

/-- Witness for `thread_tree_unique_of_covered`: a result with the
thread-tree list `["2"]` and one sample entry for `1_2`. -/
theorem thread_tree_unique_of_covered_witness :
    treeIdentStrs (mergeResults
      [[("sample_x", JVal.obj [("1_2", JVal.obj [("sampled_time", JVal.num 7)])]),
        ("syscall_meta", JVal.arr [JVal.arr [JVal.str "2"],
          JVal.obj [("2", JVal.obj [("parent", JVal.null)])]])]]) = ["2"] ∧
    (treeIdentStrs (mergeResults
      [[("sample_x", JVal.obj [("1_2", JVal.obj [("sampled_time", JVal.num 7)])]),
        ("syscall_meta", JVal.arr [JVal.arr [JVal.str "2"],
          JVal.obj [("2", JVal.obj [("parent", JVal.null)])]])]])).Nodup := by
  have h := thread_tree_unique_of_covered
    [[("sample_x", JVal.obj [("1_2", JVal.obj [("sampled_time", JVal.num 7)])]),
      ("syscall_meta", JVal.arr [JVal.arr [JVal.str "2"],
        JVal.obj [("2", JVal.obj [("parent", JVal.null)])]])]]
    (by decide) (by decide)
  exact ⟨h.1.trans (by decide), h.2⟩

/-! ## The framed reader (C2)

`TCPSocket::read(long)` and `FileDescriptor::read(long)`
(src/server/socket.cpp) are line-for-line identical.  One call first drains
the `buffered_msgs` queue; otherwise it loops: receive up to
`buf_size - start_pos` bytes after the retained prefix, scan the buffer with
`std::getline` over a stream window that excludes the last byte, emit every
complete frame (the first is returned, the rest queued), and retain an
unterminated trailing partial — in the buffer if it is shorter than the
buffer, in the local `cur_msg` string if the whole buffer is one partial.
`bytes_received == 0` (EOF) returns the retained buffer prefix (dropping
`cur_msg`).  A frame is skipped when both `cur_msg` and the scanned line are
empty.

The model fuses the queue into `readAll`, which returns the sequence of
frames produced by successive `read_line()` calls until EOF together with
the final EOF return value.  `goMsgs` is the `getline` loop: its input is
the scan of the buffer contents `data` minus the final byte
(`charstreambuf` sets the stream end to `length - 1`), split at newlines;
the last scanned line is the one on which the stream reports EOF. -/

/-- Output of one receive-and-scan iteration: the frames emitted (first
returned, rest queued), the retained buffer prefix (`start_pos` bytes), and
the local `cur_msg` accumulator. -/
structure RecvOut where
  frames : List (List Char)
  buf : List Char
  cur : List Char
deriving DecidableEq

/-- The `getline` scan loop over the message list (the newline-split of the
buffer minus its last byte).  The last message is the one scanned at EOF:
without a terminating newline it is the unterminated partial — kept in the
buffer, or appended (as the whole buffer) to `cur_msg` when it fills the
buffer exactly; with a terminating newline it is an ordinary frame and the
buffer resets.  A frame is emitted as `cur_msg ++ line` unless both are
empty, in which case it is dropped. -/
def goMsgs (bufSize : Nat) (data : List Char) (lastNL : Bool) :
    List Char → List (List Char) → RecvOut
  | cur, [] => ⟨[], [], cur⟩
  | cur, [m] =>
    if lastNL then
      if cur = [] ∧ m = [] then ⟨[], [], []⟩ else ⟨[cur ++ m], [], []⟩
    else
      if m.length + 1 = bufSize then ⟨[], [], cur ++ data.take bufSize⟩
      else ⟨[], m ++ [(data.getLast?).getD ' '], cur⟩
  | cur, m :: m' :: ms =>
    if cur = [] ∧ m = [] then goMsgs bufSize data lastNL cur (m' :: ms)
    else
      let r := goMsgs bufSize data lastNL [] (m' :: ms)
      ⟨(cur ++ m) :: r.frames, r.buf, r.cur⟩

/-- One receive: append the chunk to the retained prefix and scan.
`last_is_newline` tests the final byte of the buffer contents; the
`charstreambuf` excludes that final byte from the scanned region. -/
def processRecv (bufSize : Nat) (buf chunk cur : List Char) : RecvOut :=
  let data := buf ++ chunk
  let lastNL : Bool := decide ((data.getLast?).getD ' ' = '\n')
  goMsgs bufSize data lastNL cur (splitOnChar '\n' (data.take (data.length - 1)))

/-- All frames returned by successive `read_line()` calls until EOF,
paired with the final EOF return (the retained buffer prefix; the local
`cur_msg` of an unfinished call is lost).  `chunks` is the sequence of
nonempty receives; its exhaustion is EOF. -/
def readAll (bufSize : Nat) : List (List Char) → List Char → List Char →
    List (List Char) × List Char
  | [], buf, _cur => ([], buf)
  | chunk :: rest, buf, cur =>
    match processRecv bufSize buf chunk cur with
    | ⟨[], buf', cur'⟩ => readAll bufSize rest buf' cur'
    | ⟨fs, buf', _⟩ =>
      ((fs ++ (readAll bufSize rest buf' []).1), (readAll bufSize rest buf' []).2)

/-- Restore the newline after every frame. -/
def joinNL (fs : List (List Char)) : List Char :=
  (fs.map (fun f => f ++ ['\n'])).flatten

/-- The receive sequence is valid for the reader: every receive is nonempty
and fits the free space `buf_size - start_pos` of the moment. -/
def validChunks (bufSize : Nat) : List Char → List (List Char) → Bool
  | _, [] => true
  | buf, c :: rest =>
    (decide (c ≠ []) && decide (buf.length + c.length ≤ bufSize)) &&
    validChunks bufSize (processRecv bufSize buf c []).buf rest

theorem splitOnChar_ne_nil (sep : Char) (l : List Char) : splitOnChar sep l ≠ [] := by
  cases l with
  | nil => simp [splitOnChar]
  | cons c rest =>
    simp only [splitOnChar]
    split
    · simp
    · cases splitOnChar sep rest <;> simp

theorem splitOnChar_no_sep (sep : Char) (l : List Char) :
    ∀ s ∈ splitOnChar sep l, sep ∉ s := by
  induction l with
  | nil =>
    intro s hs
    simp only [splitOnChar, List.mem_singleton] at hs
    subst hs
    simp
  | cons c rest ih =>
    intro s hs
    simp only [splitOnChar] at hs
    split at hs
    · rcases List.mem_cons.mp hs with rfl | hmem
      · simp
      · exact ih s hmem
    · rename_i hc
      cases hrest : splitOnChar sep rest with
      | nil => exact absurd hrest (splitOnChar_ne_nil sep rest)
      | cons s0 ss =>
        rw [hrest] at hs
        rcases List.mem_cons.mp hs with rfl | hmem
        · intro hcmem
          rcases List.mem_cons.mp hcmem with rfl | hmem0
          · exact hc rfl
          · exact ih s0 (by rw [hrest]; exact List.mem_cons_self s0 ss) hmem0
        · exact ih s (by rw [hrest]; exact List.mem_cons_of_mem s0 hmem)

/-- The trailing segment after the last separator. -/
def lastSeg (sep : Char) (l : List Char) : List Char :=
  ((splitOnChar sep l).getLast?).getD []

theorem splitOnChar_cons_sep (sep : Char) (l : List Char) :
    splitOnChar sep (sep :: l) = [] :: splitOnChar sep l := by
  simp [splitOnChar]

theorem splitOnChar_cons_ne {sep c : Char} {l : List Char} (h : c ≠ sep)
    {s0 : List Char} {ss : List (List Char)} (hl : splitOnChar sep l = s0 :: ss) :
    splitOnChar sep (c :: l) = (c :: s0) :: ss := by
  simp [splitOnChar, h, hl]

theorem lastSeg_cons_sep (sep : Char) (l : List Char) :
    lastSeg sep (sep :: l) = lastSeg sep l := by
  unfold lastSeg
  rw [splitOnChar_cons_sep]
  cases hl : splitOnChar sep l with
  | nil => exact absurd hl (splitOnChar_ne_nil sep l)
  | cons s0 ss => rw [List.getLast?_cons_cons]

theorem splitOnChar_append (sep : Char) (a b : List Char) :
    splitOnChar sep (a ++ b) =
      (splitOnChar sep a).dropLast ++
        ((lastSeg sep a ++ (splitOnChar sep b).headI) :: (splitOnChar sep b).tail) := by
  induction a with
  | nil =>
    cases hb : splitOnChar sep b with
    | nil => exact absurd hb (splitOnChar_ne_nil sep b)
    | cons s0 ss => simp [splitOnChar, lastSeg, hb]
  | cons c a' ih =>
    cases ha : splitOnChar sep a' with
    | nil => exact absurd ha (splitOnChar_ne_nil sep a')
    | cons s0 ss =>
      by_cases hc : c = sep
      · subst hc
        rw [List.cons_append, splitOnChar_cons_sep, ih, splitOnChar_cons_sep,
          lastSeg_cons_sep, ha]
        rfl
      · cases ss with
        | nil =>
          have hseg : lastSeg sep a' = s0 := by
            unfold lastSeg
            rw [ha]
            rfl
          have hsplit1 : splitOnChar sep (c :: a') = [c :: s0] :=
            splitOnChar_cons_ne hc ha
          have hseg1 : lastSeg sep (c :: a') = c :: s0 := by
            unfold lastSeg
            rw [hsplit1]
            rfl
          rw [List.cons_append]
          rw [ha, hseg] at ih
          simp only [List.dropLast_single, List.nil_append] at ih
          rw [splitOnChar_cons_ne hc ih, hsplit1, hseg1]
          simp only [List.dropLast_single, List.nil_append, List.cons_append]
        | cons s1 ss' =>
          have hseg : lastSeg sep (c :: a') = lastSeg sep a' := by
            unfold lastSeg
            rw [splitOnChar_cons_ne hc ha, ha, List.getLast?_cons_cons,
              List.getLast?_cons_cons]
          rw [ha] at ih
          have hd : (s0 :: s1 :: ss').dropLast = s0 :: (s1 :: ss').dropLast := rfl
          rw [hd, List.cons_append] at ih
          rw [List.cons_append, splitOnChar_cons_ne hc ih,
            splitOnChar_cons_ne hc ha, hseg]
          rfl

theorem splitOnChar_append_sep (sep : Char) (a : List Char) :
    splitOnChar sep (a ++ [sep]) = splitOnChar sep a ++ [[]] := by
  rw [splitOnChar_append]
  have hb : splitOnChar sep [sep] = [[], []] := by simp [splitOnChar]
  rw [hb]
  simp only [List.headI, List.tail, List.append_nil]
  have : (splitOnChar sep a).dropLast ++ [lastSeg sep a] = splitOnChar sep a := by
    apply List.dropLast_append_getLast?
    unfold lastSeg
    cases hl : (splitOnChar sep a).getLast? with
    | none =>
      exact absurd (List.getLast?_eq_none_iff.mp hl) (splitOnChar_ne_nil sep a)
    | some x => rfl
  calc (splitOnChar sep a).dropLast ++ [lastSeg sep a, []]
      = ((splitOnChar sep a).dropLast ++ [lastSeg sep a]) ++ [[]] := by
        simp [List.append_assoc]
    _ = splitOnChar sep a ++ [[]] := by rw [this]

theorem splitOnChar_append_nonsep {sep c : Char} (a : List Char) (h : c ≠ sep) :
    splitOnChar sep (a ++ [c]) =
      (splitOnChar sep a).dropLast ++ [lastSeg sep a ++ [c]] := by
  rw [splitOnChar_append]
  have hb : splitOnChar sep [c] = [[c]] := by simp [splitOnChar, h]
  rw [hb]
  rfl

theorem splitOnChar_eq_self {sep : Char} {f : List Char} (h : sep ∉ f) :
    splitOnChar sep f = [f] := by
  induction f with
  | nil => rfl
  | cons c rest ih =>
    have hc : c ≠ sep := fun hc => h (by rw [hc]; exact List.mem_cons_self _ _)
    have hrest : sep ∉ rest := fun hm => h (List.mem_cons_of_mem c hm)
    exact splitOnChar_cons_ne hc (ih hrest)

theorem splitOnChar_frame_cons {sep : Char} {f : List Char} (z : List Char)
    (h : sep ∉ f) :
    splitOnChar sep (f ++ sep :: z) = f :: splitOnChar sep z := by
  rw [splitOnChar_append, splitOnChar_cons_sep, splitOnChar_eq_self h]
  simp only [List.dropLast_single, List.nil_append, List.headI, List.tail]
  have : lastSeg sep f = f := by
    unfold lastSeg
    rw [splitOnChar_eq_self h]
    rfl
  rw [this]
  cases hz : splitOnChar sep z with
  | nil => exact absurd hz (splitOnChar_ne_nil sep z)
  | cons s0 ss => simp

theorem joinNL_cons (f : List Char) (fs : List (List Char)) :
    joinNL (f :: fs) = f ++ '\n' :: joinNL fs := by
  simp [joinNL]

theorem joinNL_append (a b : List (List Char)) :
    joinNL (a ++ b) = joinNL a ++ joinNL b := by
  simp [joinNL]

theorem join_split (l : List Char) :
    joinNL ((splitOnChar '\n' l).dropLast) ++ lastSeg '\n' l = l := by
  induction l with
  | nil => rfl
  | cons c rest ih =>
    cases ha : splitOnChar '\n' rest with
    | nil => exact absurd ha (splitOnChar_ne_nil '\n' rest)
    | cons s0 ss =>
      by_cases hc : c = '\n'
      · subst hc
        rw [splitOnChar_cons_sep, lastSeg_cons_sep, ha]
        have hd : (([] : List Char) :: s0 :: ss).dropLast = [] :: (s0 :: ss).dropLast := rfl
        rw [hd, joinNL_cons]
        simp only [List.nil_append, List.cons_append]
        rw [ha] at ih
        rw [ih]
      · cases ss with
        | nil =>
          rw [splitOnChar_cons_ne hc ha]
          have hseg1 : lastSeg '\n' (c :: rest) = c :: s0 := by
            unfold lastSeg
            rw [splitOnChar_cons_ne hc ha]
            rfl
          rw [hseg1]
          have hseg : lastSeg '\n' rest = s0 := by
            unfold lastSeg
            rw [ha]
            rfl
          rw [ha, hseg] at ih
          simp only [List.dropLast_single, joinNL, List.map_nil, List.flatten_nil,
            List.nil_append] at ih ⊢
          rw [ih]
        | cons s1 ss' =>
          rw [splitOnChar_cons_ne hc ha]
          have hseg : lastSeg '\n' (c :: rest) = lastSeg '\n' rest := by
            unfold lastSeg
            rw [splitOnChar_cons_ne hc ha, ha, List.getLast?_cons_cons,
              List.getLast?_cons_cons]
          rw [hseg]
          have hd : ((c :: s0) :: s1 :: ss').dropLast = (c :: s0) :: (s1 :: ss').dropLast := rfl
          rw [hd, joinNL_cons]
          rw [ha] at ih
          have hd2 : (s0 :: s1 :: ss').dropLast = s0 :: (s1 :: ss').dropLast := rfl
          rw [hd2, joinNL_cons] at ih
          simp only [List.cons_append, List.append_assoc] at ih ⊢
          rw [ih]

theorem splitNL_joinNL_append (frames : List (List Char)) (z : List Char)
    (h : ∀ f ∈ frames, '\n' ∉ f) :
    splitOnChar '\n' (joinNL frames ++ z) = frames ++ splitOnChar '\n' z := by
  induction frames with
  | nil => simp [joinNL]
  | cons f fs ih =>
    rw [joinNL_cons, List.append_assoc, List.cons_append]
    rw [splitOnChar_frame_cons (joinNL fs ++ z) (h f (List.mem_cons_self f fs))]
    rw [ih (fun g hg => h g (List.mem_cons_of_mem f hg))]
    rfl

theorem lastSeg_mem (sep : Char) (l : List Char) :
    lastSeg sep l ∈ splitOnChar sep l := by
  unfold lastSeg
  cases hl : (splitOnChar sep l).getLast? with
  | none => exact absurd (List.getLast?_eq_none_iff.mp hl) (splitOnChar_ne_nil sep l)
  | some x =>
    obtain ⟨h, hx⟩ := List.mem_getLast?_eq_getLast (Option.mem_def.mpr hl)
    simp only [Option.getD_some]
    rw [hx]
    exact List.getLast_mem h

theorem dropLast_lastSeg (sep : Char) (l : List Char) :
    (splitOnChar sep l).dropLast ++ [lastSeg sep l] = splitOnChar sep l := by
  cases hl : (splitOnChar sep l).getLast? with
  | none => exact absurd (List.getLast?_eq_none_iff.mp hl) (splitOnChar_ne_nil sep l)
  | some x =>
    have hls : lastSeg sep l = x := by unfold lastSeg; rw [hl]; rfl
    rw [hls]
    exact List.dropLast_append_getLast? x (Option.mem_def.mpr hl)

theorem goMsgs_lastNL (bufSize : Nat) (data : List Char) (ks : List (List Char))
    (m : List Char) (hks : ∀ k ∈ ks, k ≠ []) (hm : m ≠ []) :
    goMsgs bufSize data true [] (ks ++ [m]) = ⟨ks ++ [m], [], []⟩ := by
  induction ks with
  | nil =>
    simp [goMsgs, hm]
  | cons k ks' ih =>
    have hk : k ≠ [] := hks k (List.mem_cons_self k ks')
    have hks' : ∀ x ∈ ks', x ≠ [] := fun x hx => hks x (List.mem_cons_of_mem k hx)
    cases hsh : ks' ++ [m] with
    | nil => exact absurd hsh (by simp)
    | cons x xs =>
      have hy := ih hks'
      rw [hsh] at hy
      simp only [List.cons_append, hsh, goMsgs]
      rw [if_neg (by simp [hk])]
      simp only [hy, List.nil_append]

theorem goMsgs_noNL (bufSize : Nat) (data : List Char) (ks : List (List Char))
    (m : List Char) (hks : ∀ k ∈ ks, k ≠ []) (hfull : m.length + 1 ≠ bufSize) :
    goMsgs bufSize data false [] (ks ++ [m]) =
      ⟨ks, m ++ [(data.getLast?).getD ' '], []⟩ := by
  induction ks with
  | nil =>
    simp [goMsgs, hfull]
  | cons k ks' ih =>
    have hk : k ≠ [] := hks k (List.mem_cons_self k ks')
    have hks' : ∀ x ∈ ks', x ≠ [] := fun x hx => hks x (List.mem_cons_of_mem k hx)
    cases hsh : ks' ++ [m] with
    | nil => exact absurd hsh (by simp)
    | cons x xs =>
      have hy := ih hks'
      rw [hsh] at hy
      simp only [List.cons_append, hsh, goMsgs]
      rw [if_neg (by simp [hk])]
      simp only [hy, List.nil_append]

theorem processRecv_spec (bufSize : Nat) (buf chunk : List Char)
    (hne : buf ++ chunk ≠ [])
    (hA : ∀ s ∈ (splitOnChar '\n' (buf ++ chunk)).dropLast, s ≠ [])
    (hB : (lastSeg '\n' (buf ++ chunk)).length < bufSize) :
    processRecv bufSize buf chunk [] =
      ⟨(splitOnChar '\n' (buf ++ chunk)).dropLast, lastSeg '\n' (buf ++ chunk), []⟩ := by
  have hgl? : (buf ++ chunk).getLast? = some ((buf ++ chunk).getLast hne) :=
    List.getLast?_eq_getLast_of_ne_nil hne
  have hsplit : (buf ++ chunk).dropLast ++ [(buf ++ chunk).getLast hne] = buf ++ chunk :=
    List.dropLast_append_getLast hne
  have htake : (buf ++ chunk).take ((buf ++ chunk).length - 1) = (buf ++ chunk).dropLast :=
    (List.dropLast_eq_take _).symm
  have hseg : (splitOnChar '\n' ((buf ++ chunk).dropLast)).dropLast ++
      [lastSeg '\n' ((buf ++ chunk).dropLast)] =
      splitOnChar '\n' ((buf ++ chunk).dropLast) := dropLast_lastSeg _ _
  unfold processRecv
  simp only [htake, hgl?, Option.getD_some]
  by_cases hc : (buf ++ chunk).getLast hne = '\n'
  · -- the buffer ends in a newline: the final scanned line is a real frame
    have hsp : splitOnChar '\n' (buf ++ chunk) =
        splitOnChar '\n' ((buf ++ chunk).dropLast) ++ [[]] := by
      conv_lhs => rw [← hsplit, hc]
      exact splitOnChar_append_sep '\n' _
    have hdrop : (splitOnChar '\n' (buf ++ chunk)).dropLast =
        splitOnChar '\n' ((buf ++ chunk).dropLast) := by
      rw [hsp, List.dropLast_concat]
    have hlast : lastSeg '\n' (buf ++ chunk) = [] := by
      unfold lastSeg
      rw [hsp, List.getLast?_concat]
      rfl
    rw [hdrop] at hA
    have hm : lastSeg '\n' ((buf ++ chunk).dropLast) ≠ [] :=
      hA _ (lastSeg_mem '\n' _)
    have hks : ∀ k ∈ (splitOnChar '\n' ((buf ++ chunk).dropLast)).dropLast, k ≠ [] :=
      fun k hk => hA k (List.dropLast_subset _ hk)
    rw [decide_eq_true hc, ← hseg]
    rw [goMsgs_lastNL bufSize (buf ++ chunk) _ _ hks hm]
    rw [hseg, hdrop, hlast]
  · -- the buffer ends mid-frame: the final scanned line extends the partial
    have hsp : splitOnChar '\n' (buf ++ chunk) =
        (splitOnChar '\n' ((buf ++ chunk).dropLast)).dropLast ++
          [lastSeg '\n' ((buf ++ chunk).dropLast) ++ [(buf ++ chunk).getLast hne]] := by
      conv_lhs => rw [← hsplit]
      exact splitOnChar_append_nonsep _ hc
    have hdrop : (splitOnChar '\n' (buf ++ chunk)).dropLast =
        (splitOnChar '\n' ((buf ++ chunk).dropLast)).dropLast := by
      rw [hsp, List.dropLast_concat]
    have hlast : lastSeg '\n' (buf ++ chunk) =
        lastSeg '\n' ((buf ++ chunk).dropLast) ++ [(buf ++ chunk).getLast hne] := by
      unfold lastSeg
      rw [hsp, List.getLast?_concat]
      rfl
    have hks : ∀ k ∈ (splitOnChar '\n' ((buf ++ chunk).dropLast)).dropLast, k ≠ [] := by
      intro k hk
      apply hA
      rw [hdrop]
      exact hk
    have hfull : (lastSeg '\n' ((buf ++ chunk).dropLast)).length + 1 ≠ bufSize := by
      rw [hlast] at hB
      simp only [List.length_append, List.length_cons, List.length_nil] at hB
      omega
    rw [decide_eq_false hc, ← hseg]
    rw [goMsgs_noNL bufSize (buf ++ chunk) _ _ hks hfull]
    rw [hdrop, hlast, hgl?]
    rfl

theorem readAll_spec (bufSize : Nat) (chunks : List (List Char)) :
    ∀ buf : List Char,
    validChunks bufSize buf chunks = true →
    (∀ s ∈ (splitOnChar '\n' (buf ++ chunks.flatten)).dropLast, s ≠ []) →
    (∀ s ∈ splitOnChar '\n' (buf ++ chunks.flatten), s.length < bufSize) →
    joinNL (readAll bufSize chunks buf []).1 ++ (readAll bufSize chunks buf []).2 =
      buf ++ chunks.flatten := by
  induction chunks with
  | nil =>
    intro buf _ _ _
    simp [readAll, joinNL]
  | cons chunk rest ih =>
    intro buf hv hA hB
    simp only [validChunks, Bool.and_eq_true, decide_eq_true_eq] at hv
    obtain ⟨⟨hcne, _⟩, hvrest⟩ := hv
    have hne : buf ++ chunk ≠ [] := by
      intro h
      exact hcne (List.append_eq_nil.mp h).2
    have hrem : buf ++ (chunk :: rest).flatten = (buf ++ chunk) ++ rest.flatten := by
      simp [List.append_assoc]
    rw [hrem] at hA hB ⊢
    have hsplit_rem := splitOnChar_append '\n' (buf ++ chunk) rest.flatten
    -- conditions on the one-receive buffer contents
    have hA_data : ∀ s ∈ (splitOnChar '\n' (buf ++ chunk)).dropLast, s ≠ [] := by
      intro s hs
      apply hA
      rw [hsplit_rem, List.dropLast_append_cons]
      exact List.mem_append_left _ hs
    have hB_data : (lastSeg '\n' (buf ++ chunk)).length < bufSize := by
      have hmem : (lastSeg '\n' (buf ++ chunk) ++
          (splitOnChar '\n' rest.flatten).headI) ∈
          splitOnChar '\n' ((buf ++ chunk) ++ rest.flatten) := by
        rw [hsplit_rem]
        exact List.mem_append_right _ (List.mem_cons_self _ _)
      have hlen := hB _ hmem
      simp only [List.length_append] at hlen
      omega
    have hrecv := processRecv_spec bufSize buf chunk hne hA_data hB_data
    have hvrest' : validChunks bufSize (lastSeg '\n' (buf ++ chunk)) rest = true := by
      rw [hrecv] at hvrest
      exact hvrest
    -- the stream splits as the emitted frames followed by the rest
    have hframes_nosep : ∀ f ∈ (splitOnChar '\n' (buf ++ chunk)).dropLast, '\n' ∉ f :=
      fun f hf => splitOnChar_no_sep '\n' (buf ++ chunk) f (List.dropLast_subset _ hf)
    have hrem_eq : (buf ++ chunk) ++ rest.flatten =
        joinNL ((splitOnChar '\n' (buf ++ chunk)).dropLast) ++
          (lastSeg '\n' (buf ++ chunk) ++ rest.flatten) := by
      conv_lhs => rw [← join_split (buf ++ chunk)]
      simp [List.append_assoc]
    have hsplit2 : splitOnChar '\n' ((buf ++ chunk) ++ rest.flatten) =
        (splitOnChar '\n' (buf ++ chunk)).dropLast ++
          splitOnChar '\n' (lastSeg '\n' (buf ++ chunk) ++ rest.flatten) := by
      rw [hrem_eq, splitNL_joinNL_append _ _ hframes_nosep]
    have hA' : ∀ s ∈ (splitOnChar '\n'
        (lastSeg '\n' (buf ++ chunk) ++ rest.flatten)).dropLast, s ≠ [] := by
      intro s hs
      apply hA
      rw [hsplit2]
      cases hz : splitOnChar '\n' (lastSeg '\n' (buf ++ chunk) ++ rest.flatten) with
      | nil => exact absurd hz (splitOnChar_ne_nil _ _)
      | cons s0 ss =>
        rw [List.dropLast_append_cons]
        rw [hz] at hs
        exact List.mem_append_right _ hs
    have hB' : ∀ s ∈ splitOnChar '\n'
        (lastSeg '\n' (buf ++ chunk) ++ rest.flatten), s.length < bufSize := by
      intro s hs
      apply hB
      rw [hsplit2]
      exact List.mem_append_right _ hs
    have ihr := ih (lastSeg '\n' (buf ++ chunk)) hvrest' hA' hB'
    -- unfold one readAll step
    cases hfr : (splitOnChar '\n' (buf ++ chunk)).dropLast with
    | nil =>
      have hread : readAll bufSize (chunk :: rest) buf [] =
          readAll bufSize rest (lastSeg '\n' (buf ++ chunk)) [] := by
        simp only [readAll, hrecv, hfr]
      rw [hread, ihr]
      have hdata : lastSeg '\n' (buf ++ chunk) = buf ++ chunk := by
        have := join_split (buf ++ chunk)
        rw [hfr] at this
        simpa [joinNL] using this
      rw [hdata, List.append_assoc]
    | cons f fs =>
      have hread : readAll bufSize (chunk :: rest) buf [] =
          ((f :: fs) ++ (readAll bufSize rest (lastSeg '\n' (buf ++ chunk)) []).1,
           (readAll bufSize rest (lastSeg '\n' (buf ++ chunk)) []).2) := by
        simp only [readAll, hrecv, hfr]
      rw [hread]
      simp only [joinNL_append]
      rw [List.append_assoc, ihr, ← hfr, hrem_eq]

/-- C2 (amended).  For every valid receive sequence, the concatenation of
the results of successive `read_line()` calls until EOF — each returned
frame with its `\n` restored, then the final EOF return (the retained
prefix) — equals the full byte stream, **provided** (i) the stream contains
no empty frame (the scan loop silently drops a line that is empty when
`cur_msg` is empty too), and (ii) every frame and the trailing partial are
shorter than the buffer size (a partial that exactly fills the buffer moves
into the local `cur_msg`, which EOF discards).  Partial frames within these
bounds are preserved across receives, and on EOF a nonempty buffered prefix
is returned as the final result. -/
theorem read_line_concat_spec (bufSize : Nat) (chunks : List (List Char))
    (hv : validChunks bufSize [] chunks = true)
    (hA : ∀ s ∈ (splitOnChar '\n' chunks.flatten).dropLast, s ≠ [])
    (hB : ∀ s ∈ splitOnChar '\n' chunks.flatten, s.length < bufSize) :
    joinNL (readAll bufSize chunks [] []).1 ++ (readAll bufSize chunks [] []).2 =
      chunks.flatten := by
  have h := readAll_spec bufSize chunks [] hv (by simpa using hA) (by simpa using hB)
  simpa using h

/-- C2 counterexample.  The single valid receive `a\n\nb\n` (buffer size 8)
contains an empty frame; `read_line()` yields `a` then `b` and EOF, so the
concatenation with newlines restored is `a\nb\n`, not the original stream —
the reader silently drops the empty frame instead of returning it. -/
theorem read_line_drops_empty_frame :
    validChunks 8 [] [['a', '\n', '\n', 'b', '\n']] = true ∧
    readAll 8 [['a', '\n', '\n', 'b', '\n']] [] [] = ([['a'], ['b']], []) ∧
    joinNL (readAll 8 [['a', '\n', '\n', 'b', '\n']] [] []).1 ++
      (readAll 8 [['a', '\n', '\n', 'b', '\n']] [] []).2 ≠
      [['a', '\n', '\n', 'b', '\n']].flatten := by
  decide

/-- Witness for `read_line_concat_spec`: stream `ab\ncd\n` received as
`ab\nc` + `d\n` with buffer size 4 — a receive ending mid-frame retains the
partial `c`, and the concatenation property holds. -/
theorem read_line_concat_spec_witness :
    joinNL (readAll 4 [['a', 'b', '\n', 'c'], ['d', '\n']] [] []).1 ++
      (readAll 4 [['a', 'b', '\n', 'c'], ['d', '\n']] [] []).2 =
      [['a', 'b', '\n', 'c'], ['d', '\n']].flatten :=
  read_line_concat_spec 4 [['a', 'b', '\n', 'c'], ['d', '\n']]
    (by decide) (by decide) (by decide)

/-! ## The file-upload phase (C5, C7, C10)

After the merge, `StdClient::process` announces `out_files` and loops on
control frames until `<STOP>`: `p <name>`/`o <name>` select the
`processed`/`out` directory, any other shape (including frames shorter than
3 bytes) is answered with `error_wrong_file_format` and the loop continues
without accepting a data connection.  An accepted upload opens
`<dir>/<name>` — the announced name is appended verbatim, with no
validation — and streams bytes until EOF; the special name
`code_paths.lst` instead reads newline-framed paths (over a connection with
`buf_size = 1`) until `read()` returns an empty string, collects the
existing ones canonicalized into a set, and hands them to
`create_src_archive`, which writes `<processed>/src.zip`.  After the loop,
`finished` is sent. -/

/-- Observable actions of the upload phase: control-connection replies,
files created by `ofstream` (at their full path), and the source archive. -/
inductive UploadEvent where
  | reply : String → UploadEvent
  | fileOpen : String → UploadEvent
  | srcArchive : String → List String → UploadEvent
deriving DecidableEq

/-- The environment of one accepted file connection: the raw receives, and
whether the `ofstream` opens, all writes succeed, and a read times out. -/
structure FileDelivery where
  chunks : List (List Char)
  openOk : Bool
  writeOk : Bool
  timeout : Bool
deriving DecidableEq

/-- `std::filesystem::path::operator/`: an absolute right-hand side replaces
the left-hand side. -/
def fsPathAppend (dir name : String) : String :=
  if name.data.headI = '/' then name else dir ++ "/" ++ name

/-- The `code_paths.lst` collection loop: insert the canonical form of every
line that exists on the filesystem into the (deduplicated) set; lines whose
file does not exist are skipped silently. -/
def codePathsSet (fsE : String → Bool) (canon : String → String)
    (lines : List (List Char)) : List String :=
  lines.foldl (fun acc l =>
    let s := String.mk l
    if fsE s then (if canon s ∈ acc then acc else acc ++ [canon s]) else acc) []

/-- Events of one ordinary file upload to `path`. -/
def uploadFileEvents (path : String) (d : FileDelivery) : List UploadEvent :=
  if d.openOk then
    .fileOpen path ::
      (if d.timeout then [.reply "error_out_file_timeout"]
       else if d.writeOk then [.reply "out_file_ok"]
       else [.reply "error_out_file"])
  else [.reply "error_out_file"]

/-- Events of a `code_paths.lst` upload: the file connection (accepted with
`buf_size = 1`) is read line-framed until `read()` returns the empty string
— with one-byte receives the retained prefix at EOF is always empty, so
this is exactly connection EOF — and the collected set is archived into
`<processed>/src.zip`. -/
def codePathsEvents (processedPath : String) (fsE : String → Bool)
    (canon : String → String) (d : FileDelivery) : List UploadEvent :=
  [.srcArchive (processedPath ++ "/src.zip")
      (codePathsSet fsE canon (readAll 1 d.chunks [] []).1),
   .reply "out_file_ok"]

/-- The upload control loop of `StdClient::process`.  A malformed frame is
answered and consumes no data connection; an accepted frame consumes the
next `FileDelivery`.  An exhausted model input ends the loop (the real code
would block reading the next frame or accepting a connection). -/
def uploadLoop (pp op : String) (fsE : String → Bool) (canon : String → String) :
    List String → List FileDelivery → List UploadEvent
  | [], _ => []
  | x :: xs, ds =>
    if x = "<STOP>" then []
    else if x.length < 3 then
      .reply "error_wrong_file_format" :: uploadLoop pp op fsE canon xs ds
    else if x.data.headI ≠ 'p' ∧ x.data.headI ≠ 'o' then
      .reply "error_wrong_file_format" :: uploadLoop pp op fsE canon xs ds
    else if (x.data.drop 1).headI ≠ ' ' then
      .reply "error_wrong_file_format" :: uploadLoop pp op fsE canon xs ds
    else
      match ds with
      | [] => []
      | d :: ds' =>
        (if String.mk (x.data.drop 2) = "code_paths.lst" then
          codePathsEvents pp fsE canon d
        else
          uploadFileEvents
            (fsPathAppend (if x.data.headI = 'p' then pp else op)
              (String.mk (x.data.drop 2))) d) ++
        uploadLoop pp op fsE canon xs ds'

/-- The whole upload phase: the loop followed by the final `finished`. -/
def uploadPhase (pp op : String) (fsE : String → Bool) (canon : String → String)
    (frames : List String) (ds : List FileDelivery) : List UploadEvent :=
  uploadLoop pp op fsE canon frames ds ++ [.reply "finished"]

/-- C7.  In the `AwaitFiles` state, every non-`<STOP>` frame whose first
character is neither `o` nor `p`, or whose second byte is not a space, is
answered with `error_wrong_file_format` and the loop continues with the
remaining frames (no data connection is consumed); a subsequent `<STOP>`
frame still terminates the phase cleanly and the server sends `finished`. -/
theorem upload_bad_frame_error_continues (pp op : String) (fsE : String → Bool)
    (canon : String → String) (x : String) (frames : List String)
    (ds : List FileDelivery) (hstop : x ≠ "<STOP>")
    (hbad : (x.data.headI ≠ 'p' ∧ x.data.headI ≠ 'o') ∨ (x.data.drop 1).headI ≠ ' ') :
    uploadPhase pp op fsE canon (x :: frames) ds =
      UploadEvent.reply "error_wrong_file_format" ::
        uploadPhase pp op fsE canon frames ds ∧
    uploadPhase pp op fsE canon ("<STOP>" :: frames) ds =
      [UploadEvent.reply "finished"] := by
  constructor
  · unfold uploadPhase
    have hloop : uploadLoop pp op fsE canon (x :: frames) ds =
        UploadEvent.reply "error_wrong_file_format" ::
          uploadLoop pp op fsE canon frames ds := by
      simp only [uploadLoop]
      rw [if_neg hstop]
      by_cases hlen : x.length < 3
      · rw [if_pos hlen]
      · rw [if_neg hlen]
        by_cases hfo : x.data.headI ≠ 'p' ∧ x.data.headI ≠ 'o'
        · rw [if_pos hfo]
        · rw [if_neg hfo]
          rcases hbad with h1 | h2
          · exact absurd h1 hfo
          · rw [if_pos h2]
    rw [hloop]
    rfl
  · unfold uploadPhase
    have hloop : uploadLoop pp op fsE canon ("<STOP>" :: frames) ds = [] := by
      simp only [uploadLoop]
      simp
    rw [hloop]
    rfl

/-- Witness for `upload_bad_frame_error_continues`: the spec's malformed
frame `x foo.txt`, then `<STOP>`. -/
theorem upload_bad_frame_error_continues_witness :
    uploadPhase "P" "O" (fun _ => false) id ["x foo.txt", "<STOP>"] [] =
      [UploadEvent.reply "error_wrong_file_format", UploadEvent.reply "finished"] := by
  have h := upload_bad_frame_error_continues "P" "O" (fun _ => false) id
    "x foo.txt" ["<STOP>"] [] (by decide) (Or.inl (by decide))
  rw [h.1]
  have h2 := (upload_bad_frame_error_continues "P" "O" (fun _ => false) id
    "x foo.txt" [] [] (by decide) (Or.inl (by decide))).2
  rw [h2]

theorem uploadLoop_events (pp op : String) (fsE : String → Bool)
    (canon : String → String) (frames : List String) :
    ∀ (ds : List FileDelivery), ∀ e ∈ uploadLoop pp op fsE canon frames ds,
      (∀ path, e = UploadEvent.fileOpen path →
        ∃ x ∈ frames, x ≠ "<STOP>" ∧
          (path = fsPathAppend pp (String.mk (x.data.drop 2)) ∨
           path = fsPathAppend op (String.mk (x.data.drop 2)))) ∧
      (∀ z paths, e = UploadEvent.srcArchive z paths → z = pp ++ "/src.zip") := by
  induction frames with
  | nil =>
    intro ds e he
    simp [uploadLoop] at he
  | cons x xs ih =>
    intro ds e he
    have hlift : ∀ (ds' : List FileDelivery), e ∈ uploadLoop pp op fsE canon xs ds' →
        (∀ path, e = UploadEvent.fileOpen path →
          ∃ y ∈ x :: xs, y ≠ "<STOP>" ∧
            (path = fsPathAppend pp (String.mk (y.data.drop 2)) ∨
             path = fsPathAppend op (String.mk (y.data.drop 2)))) ∧
        (∀ z paths, e = UploadEvent.srcArchive z paths → z = pp ++ "/src.zip") := by
      intro ds' hmem
      obtain ⟨h1, h2⟩ := ih ds' e hmem
      refine ⟨?_, h2⟩
      intro path hp
      obtain ⟨y, hy, hrest⟩ := h1 path hp
      exact ⟨y, List.mem_cons_of_mem x hy, hrest⟩
    have hreply : ∀ s : String, e = UploadEvent.reply s →
        (∀ path, e = UploadEvent.fileOpen path →
          ∃ y ∈ x :: xs, y ≠ "<STOP>" ∧
            (path = fsPathAppend pp (String.mk (y.data.drop 2)) ∨
             path = fsPathAppend op (String.mk (y.data.drop 2)))) ∧
        (∀ z paths, e = UploadEvent.srcArchive z paths → z = pp ++ "/src.zip") := by
      intro s hs
      subst hs
      exact ⟨fun path hp => absurd hp (by simp),
             fun z ps hz => absurd hz (by simp)⟩
    simp only [uploadLoop] at he
    split at he
    · simp at he
    · rename_i hstop
      split at he
      · rcases List.mem_cons.mp he with rfl | hmem
        · exact hreply _ rfl
        · exact hlift ds hmem
      · split at he
        · rcases List.mem_cons.mp he with rfl | hmem
          · exact hreply _ rfl
          · exact hlift ds hmem
        · split at he
          · rcases List.mem_cons.mp he with rfl | hmem
            · exact hreply _ rfl
            · exact hlift ds hmem
          · split at he
            · simp at he
            · rename_i d ds'
              rcases List.mem_append.mp he with hml | hmr
              · split at hml
                · simp only [codePathsEvents, List.mem_cons] at hml
                  rcases hml with rfl | rfl | h
                  · refine ⟨fun path hp => absurd hp (by simp), ?_⟩
                    intro z ps hz
                    cases hz
                    rfl
                  · exact hreply _ rfl
                  · exact absurd h (List.not_mem_nil e)
                · simp only [uploadFileEvents] at hml
                  split at hml
                  · rcases List.mem_cons.mp hml with rfl | hml2
                    · refine ⟨?_, fun z ps hz => absurd hz (by simp)⟩
                      intro path hp
                      cases hp
                      refine ⟨x, List.mem_cons_self x xs, hstop, ?_⟩
                      by_cases hpx : x.data.headI = 'p'
                      · left
                        rw [if_pos hpx]
                      · right
                        rw [if_neg hpx]
                    · split at hml2
                      · rcases List.mem_singleton.mp hml2 with rfl
                        exact hreply _ rfl
                      · split at hml2
                        · rcases List.mem_singleton.mp hml2 with rfl
                          exact hreply _ rfl
                        · rcases List.mem_singleton.mp hml2 with rfl
                          exact hreply _ rfl
                  · rcases List.mem_singleton.mp hml with rfl
                    exact hreply _ rfl
              · exact hlift ds' hmr

/-- C5 (amended).  Every file the server writes during the file-upload
phase is created at exactly `<dir>/<name>` where `<dir>` is
`<result_dir>/processed` or `<result_dir>/out` and `<name>` is the
announced remainder of the frame taken **verbatim** (an absolute name even
replaces the directory, per `std::filesystem::path::operator/`); the source
archive is always written to `<processed>/src.zip`.  Names are **not**
validated: a name containing slashes (such as `../../etc/evil`) is accepted
and the resulting path can denote a file outside the two directories, so
confinement holds only for slash-free relative names. -/
theorem upload_write_paths_verbatim (pp op : String) (fsE : String → Bool)
    (canon : String → String) (frames : List String) (ds : List FileDelivery) :
    (∀ path, UploadEvent.fileOpen path ∈ uploadPhase pp op fsE canon frames ds →
      ∃ x ∈ frames, x ≠ "<STOP>" ∧
        (path = fsPathAppend pp (String.mk (x.data.drop 2)) ∨
         path = fsPathAppend op (String.mk (x.data.drop 2)))) ∧
    (∀ z paths, UploadEvent.srcArchive z paths ∈ uploadPhase pp op fsE canon frames ds →
      z = pp ++ "/src.zip") := by
  constructor
  · intro path hmem
    unfold uploadPhase at hmem
    rcases List.mem_append.mp hmem with hm | hm
    · exact (uploadLoop_events pp op fsE canon frames ds _ hm).1 path rfl
    · rcases List.mem_singleton.mp hm with hm2
      exact absurd hm2 (by simp)
  · intro z paths hmem
    unfold uploadPhase at hmem
    rcases List.mem_append.mp hmem with hm | hm
    · exact (uploadLoop_events pp op fsE canon frames ds _ hm).2 z paths rfl
    · rcases List.mem_singleton.mp hm with hm2
      exact absurd hm2 (by simp)

/-- C5 counterexample.  The frame `p ../../etc/evil` is accepted (no
`error_wrong_file_format`), the announced name is appended verbatim, and
the server opens `RES/processed/../../etc/evil` — a path outside the
`processed` and `out` directories — then replies `out_file_ok`: names
containing slashes are not rejected. -/
theorem upload_accepts_slash_name :
    uploadPhase "RES/processed" "RES/out" (fun _ => false) id
      ["p ../../etc/evil", "<STOP>"] [⟨[], true, true, false⟩] =
      [UploadEvent.fileOpen "RES/processed/../../etc/evil",
       UploadEvent.reply "out_file_ok", UploadEvent.reply "finished"] := by
  decide

/-- Witness for `upload_write_paths_verbatim` at the accepted frame
`p a.txt`. -/
theorem upload_write_paths_verbatim_witness :
    UploadEvent.fileOpen "PP/a.txt" ∈
      uploadPhase "PP" "OO" (fun _ => false) id ["p a.txt", "<STOP>"]
        [⟨[], true, true, false⟩] ∧
    ∃ x ∈ ["p a.txt", "<STOP>"], x ≠ "<STOP>" ∧
      ("PP/a.txt" = fsPathAppend "PP" (String.mk (x.data.drop 2)) ∨
       "PP/a.txt" = fsPathAppend "OO" (String.mk (x.data.drop 2))) := by
  refine ⟨by decide, ?_⟩
  exact (upload_write_paths_verbatim "PP" "OO" (fun _ => false) id
    ["p a.txt", "<STOP>"] [⟨[], true, true, false⟩]).1 "PP/a.txt" (by decide)

/-! ## C10: the `code_paths.lst` collection loop -/

/-- The frames a reader with `buf_size = 1` delivers for a byte stream:
the newline-separated segments, minus the trailing unterminated partial
(never delivered) and minus the empty segments (silently dropped). -/
def framesOf (s : List Char) : List (List Char) :=
  ((splitOnChar '\n' s).dropLast).filter (fun f => decide (f ≠ []))

theorem framesOf_no_sep {cur : List Char} (h : '\n' ∉ cur) :
    framesOf cur = [] := by
  unfold framesOf
  rw [splitOnChar_eq_self h]
  rfl

theorem framesOf_newline_cons (z : List Char) :
    framesOf ('\n' :: z) = framesOf z := by
  unfold framesOf
  rw [splitOnChar_cons_sep]
  cases hz : splitOnChar '\n' z with
  | nil => exact absurd hz (splitOnChar_ne_nil _ _)
  | cons s0 ss => simp

theorem framesOf_frame_cons {f : List Char} (z : List Char)
    (hsep : '\n' ∉ f) (hne : f ≠ []) :
    framesOf (f ++ '\n' :: z) = f :: framesOf z := by
  unfold framesOf
  rw [splitOnChar_frame_cons z hsep]
  cases hz : splitOnChar '\n' z with
  | nil => exact absurd hz (splitOnChar_ne_nil _ _)
  | cons s0 ss => simp [hne]

/-- With `buf_size = 1` every receive is a single byte, so every byte lands
in the buffer-full branch (one data byte plus the retained terminator
position fill the buffer exactly) or terminates the current message; the
reader delivers exactly the nonempty newline-terminated segments of the
whole stream and the EOF return is always the empty string. -/
theorem readAll_one (chunks : List (List Char)) :
    ∀ cur : List Char, (∀ c ∈ chunks, c.length = 1) → '\n' ∉ cur →
      readAll 1 chunks [] cur = (framesOf (cur ++ chunks.flatten), []) := by
  induction chunks with
  | nil =>
    intro cur _ hcur
    simp only [readAll, List.flatten_nil, List.append_nil]
    rw [framesOf_no_sep hcur]
  | cons c rest ih =>
    intro cur hlen hcur
    have hc1 : c.length = 1 := hlen c (List.mem_cons_self _ _)
    have hlen2 : ∀ x ∈ rest, x.length = 1 :=
      fun x hx => hlen x (List.mem_cons_of_mem c hx)
    cases c with
    | nil => simp at hc1
    | cons ch tl =>
      cases tl with
      | cons a b => simp at hc1
      | nil =>
        by_cases hch : ch = '\n'
        · subst hch
          by_cases hcur0 : cur = []
          · subst hcur0
            have hpr : processRecv 1 [] ['\n'] [] = ⟨[], [], []⟩ := by rfl
            have hread : readAll 1 (['\n'] :: rest) [] [] =
                readAll 1 rest [] [] := by
              simp only [readAll, hpr]
            rw [hread, ih [] hlen2 (by simp)]
            simp [framesOf_newline_cons]
          · have hpr : processRecv 1 [] ['\n'] cur = ⟨[cur], [], []⟩ := by
              simp [processRecv, goMsgs, splitOnChar, hcur0]
            have hread : readAll 1 (['\n'] :: rest) [] cur =
                ([cur] ++ (readAll 1 rest [] []).1,
                 (readAll 1 rest [] []).2) := by
              simp only [readAll, hpr]
            rw [hread, ih [] hlen2 (by simp)]
            simp only [List.nil_append, List.flatten_cons, List.singleton_append]
            rw [framesOf_frame_cons _ hcur hcur0]
        · have hpr : processRecv 1 [] [ch] cur = ⟨[], [], cur ++ [ch]⟩ := by
            simp [processRecv, goMsgs, splitOnChar, hch]
          have hread : readAll 1 ([ch] :: rest) [] cur =
              readAll 1 rest [] (cur ++ [ch]) := by
            simp only [readAll, hpr]
          have hcur2 : '\n' ∉ cur ++ [ch] := by
            simp only [List.mem_append, List.mem_singleton]
            rintro (h | h)
            · exact hcur h
            · exact hch h.symm
          rw [hread, ih (cur ++ [ch]) hlen2 hcur2]
          simp [List.append_assoc]

/-- C10 (amended).  When the announced file name is exactly
`code_paths.lst`, the server reads newline-framed paths from the file
connection until connection **EOF** — not until the first empty frame: the
reader drops empty frames silently, and with `buf_size = 1` the string
`read()` returns at EOF is always empty, so `line.empty()` fires exactly at
EOF.  Every path naming a nonexistent file is silently skipped, and only
the existing paths, canonicalized and deduplicated, form the set handed to
the source archiver that writes `<processed>/src.zip`. -/
theorem code_paths_read_until_eof (pp op : String) (fsE : String → Bool)
    (canon : String → String) (rest : List String) (d : FileDelivery)
    (ds : List FileDelivery) (hone : ∀ c ∈ d.chunks, c.length = 1) :
    uploadPhase pp op fsE canon ("p code_paths.lst" :: rest) (d :: ds) =
      UploadEvent.srcArchive (pp ++ "/src.zip")
          (codePathsSet fsE canon (framesOf d.chunks.flatten)) ::
        UploadEvent.reply "out_file_ok" ::
        uploadPhase pp op fsE canon rest ds := by
  have hra : readAll 1 d.chunks [] [] = (framesOf d.chunks.flatten, []) := by
    rw [readAll_one d.chunks [] hone (by simp)]
    simp
  unfold uploadPhase
  have hl : uploadLoop pp op fsE canon ("p code_paths.lst" :: rest) (d :: ds) =
      codePathsEvents pp fsE canon d ++ uploadLoop pp op fsE canon rest ds := by
    simp [uploadLoop, (show ¬("p code_paths.lst".length < 3) by decide)]
  rw [hl, codePathsEvents, hra]
  simp

/-- C10 counterexample.  The stream `a\n\nb\n` (delivered byte by byte, as
with `buf_size = 1`) contains an empty frame after `a`; the claim predicts
the collection stops there with only `a`, but the reader never surfaces the
empty frame and the server collects `a` **and** `b` until EOF. -/
theorem code_paths_reads_past_empty_frame :
    uploadPhase "PP" "OO" (fun _ => true) id ["p code_paths.lst", "<STOP>"]
      [⟨[['a'], ['\n'], ['\n'], ['b'], ['\n']], true, true, false⟩] =
      [UploadEvent.srcArchive "PP/src.zip" ["a", "b"],
       UploadEvent.reply "out_file_ok", UploadEvent.reply "finished"] := by
  decide

/-- Witness for `code_paths_read_until_eof`: stream `x\ny\n` byte by byte,
with only `x` existing on the filesystem. -/
theorem code_paths_read_until_eof_witness :
    uploadPhase "PP" "OO" (fun s => decide (s = "x")) id
        ["p code_paths.lst"] [⟨[['x'], ['\n'], ['y'], ['\n']], true, true, false⟩] =
      UploadEvent.srcArchive ("PP" ++ "/src.zip")
          (codePathsSet (fun s => decide (s = "x")) id
            (framesOf [['x'], ['\n'], ['y'], ['\n']].flatten)) ::
        UploadEvent.reply "out_file_ok" ::
        uploadPhase "PP" "OO" (fun s => decide (s = "x")) id [] [] :=
  code_paths_read_until_eof "PP" "OO" (fun s => decide (s = "x")) id []
    ⟨[['x'], ['\n'], ['y'], ['\n']], true, true, false⟩ [] (by decide)
